import Mathlib

/-!
Verification development for the squid-sdk EVM indexing core.

The Lean definitions below are a shallow embedding of the TypeScript
sources:

* `src/evm/evm-processor/src/processor.ts` (`EvmBatchProcessor` configuration),
* `src/unnamed/part_000` (`EvmArchive` data source and field selection),
* `src/typeorm/typeorm-store/src/hot.ts` (`ChangeTracker` / `rollbackBlock`).

JavaScript objects whose keys carry boolean flags (field selectors) are
embedded as functions `String → Option Bool`: a key that is absent or has
value `undefined`/`null` maps to `none` (the two cases are observably
identical to the code, which only tests `selection[key] != null` and
serializes `undefined` as an absent key).  Fallible code is embedded with
`Except`.  `JSON`/SQL side effects are embedded as explicit data flow: an
HTTP response or a SQL result set becomes a function argument.
-/

namespace SquidSdk

/-! ### Field selection (`src/unnamed/part_000`, lines 242-280)

`Selector<Props>` from the source is a partial map from field names to
booleans; `FieldSelection` plays the role of both the user-facing `Fields`
shape and the gateway `gw.FieldSelection` shape (they are structurally
identical: an optional selector per entity).  -/

/-- A JS object of optional boolean flags, e.g. `{hash: true, number: true}`. -/
abbrev Selector := String → Option Bool

/-- The empty JS object `{}` as a selector. -/
def emptySelector : Selector := fun _ => none

/-- Source `s?.k` access: an absent selector behaves like the empty object. -/
def selOf (s : Option Selector) : Selector := s.getD emptySelector

/-- User field selection / gateway field masks: one optional selector per
entity (`block`, `transaction`, `log`). -/
@[ext]
structure FieldSelection where
  block : Option Selector
  transaction : Option Selector
  log : Option Selector

/-- Modelled from the spec: `DEFAULT_FIELDS.block` lives in
`src/evm/evm-processor/src/interfaces/data.ts`, which is not under `src/`;
the glossary fixes the default block projection as
`{number, hash, parentHash, timestamp}`. -/
def defaultBlockFields : Selector := fun k =>
  if k = "number" ∨ k = "hash" ∨ k = "parentHash" ∨ k = "timestamp" then some true else none

/-- Modelled from the spec: `DEFAULT_FIELDS.transaction` =
`{hash, from, to, input}` (glossary, default field projection). -/
def defaultTransactionFields : Selector := fun k =>
  if k = "hash" ∨ k = "from" ∨ k = "to" ∨ k = "input" then some true else none

/-- Modelled from the spec: `DEFAULT_FIELDS.log` =
`{address, topics, data, transactionHash}` (glossary, default field projection). -/
def defaultLogFields : Selector := fun k =>
  if k = "address" ∨ k = "topics" ∨ k = "data" ∨ k = "transactionHash" then some true else none

/-- Source `mergeDefaultFields` (part_000 lines 268-280): start from a copy of the
defaults; every key of `selection` with a non-null value either forces the
field on (`true`) or removes it (`false` turns the entry into `undefined`). -/
def mergeDefaultFields (defaults : Selector) (selection : Option Selector) : Selector :=
  fun k =>
    match selection with
    | none => defaults k
    | some sel =>
      match sel k with
      | some true => some true
      | some false => none
      | none => defaults k

/-- JS spread with literal `true` overrides, e.g. `{...base, hash: true, number: true}`
is `spreadTrue base ["hash", "number"]`. -/
def spreadTrue (base : Selector) (keys : List String) : Selector :=
  fun k => if keys.contains k then some true else base k

/-- The destructuring `let {transaction, ...logFields} = fields?.log || {}`
(part_000 line 243): drop the `transaction` flag from the log selector. -/
def removeTransactionKey (sel : Selector) : Selector :=
  fun k => if k = "transaction" then none else sel k

/-- Source `toFieldSelection` (part_000 lines 242-260): merge each entity selector
with its defaults and force the always-on fields `block.{hash, number}`,
`transaction.index` and `log.{index, transactionIndex}`. -/
def toFieldSelection (fields : Option FieldSelection) : FieldSelection :=
  let logFields := removeTransactionKey (selOf (fields.bind FieldSelection.log))
  { block := some (spreadTrue
      (mergeDefaultFields defaultBlockFields (fields.bind FieldSelection.block))
      ["hash", "number"])
    transaction := some (spreadTrue
      (mergeDefaultFields defaultTransactionFields (fields.bind FieldSelection.transaction))
      ["index"])
    log := some (spreadTrue
      (mergeDefaultFields defaultLogFields (some logFields))
      ["index", "transactionIndex"]) }

/-- Truthiness of `fields?.log?.transaction` (part_000 line 40). -/
def logTransactionFlag (fields : Option FieldSelection) : Bool :=
  selOf (fields.bind FieldSelection.log) "transaction" == some true

/-- A user selection never explicitly disables (`false`) a field that the
default projections enable. -/
def noDisabledDefaults (fields : Option FieldSelection) : Prop :=
  (∀ k, selOf (fields.bind FieldSelection.block) k = some false → defaultBlockFields k = none)
  ∧ (∀ k, selOf (fields.bind FieldSelection.transaction) k = some false →
      defaultTransactionFields k = none)
  ∧ (∀ k, selOf (fields.bind FieldSelection.log) k = some false → defaultLogFields k = none)

/-! ### Processor configuration (`src/evm/evm-processor/src/processor.ts`)

`EvmBatchProcessor` is a mutable configuration object; we embed it as the
record `ProcState` and each configuration method as a function
`ProcState → ... → ProcState × Option String`.  The `Option String`
component is the thrown error: JavaScript `throw` happens before any field
assignment, so on an error the state is returned unchanged. -/

/-- JS `String.prototype.toLowerCase` restricted to the characters the code
handles (hex addresses/sighashes): lower-case every character. -/
def toLowerCase (s : String) : String := ⟨s.data.map Char.toLower⟩

/-- A `string | string[]` argument. -/
inductive StrArg where
  | one (s : String)
  | many (l : List String)
deriving DecidableEq

/-- Source `Range` from `util-internal-processor-tools`: `{from: number, to?: number}`.
`lo` is `from` (a Lean keyword), `hi` is `to`. -/
structure Range where
  lo : Nat
  hi : Option Nat
deriving DecidableEq

/-- Source `toRequestList` (processor.ts lines 345-352): `undefined` stays absent, a
single string is wrapped into a list, an empty list becomes absent, and every
entry is lower-cased. -/
def toRequestList (v : Option StrArg) : Option (List String) :=
  match v with
  | none => none
  | some a =>
    let val := match a with | .one s => [s] | .many l => l
    if val.length = 0 then none else some (val.map toLowerCase)

/-- Source `LogOptions` (processor.ts lines 45-58).  `filter` is an `EvmTopicSet`
(a list of topic alternatives per position). -/
structure LogOptions where
  address : Option StrArg
  filter : Option (List (List String))
  range : Option Range

/-- Source `TransactionOptions` (processor.ts lines 61-78). -/
structure TransactionOptions where
  toAddress : Option StrArg
  fromAddress : Option StrArg
  sighash : Option StrArg
  range : Option Range

/-- A log request stored in a `DataRequest` (`logs` entries built by `addLog`). -/
structure LogRequest where
  address : Option (List String)
  filter : Option (List (List String))
deriving DecidableEq

/-- A transaction request stored in a `DataRequest` (`transactions` entries
built by `addTransaction`). -/
structure TransactionRequest where
  fromAddress : Option (List String)
  toAddress : Option (List String)
  sighash : Option (List String)
deriving DecidableEq

/-- Source `DataRequest` (`src/evm/evm-processor/src/interfaces/data.ts`): the merged
upstream request shape.  `includeAllBlocks?: boolean` is embedded as a `Bool`
(`undefined` and `false` are observably identical: the code only tests
truthiness via `!!` / `||`). -/
structure DataRequest where
  includeAllBlocks : Bool
  logs : Option (List LogRequest)
  transactions : Option (List TransactionRequest)
  fields : Option FieldSelection

/-- Source `BatchRequest<DataRequest>` from `util-internal-processor-tools`. -/
structure BatchRequest where
  range : Range
  request : DataRequest

/-- Source `DataSource` (processor.ts lines 21-42). -/
structure DataSource where
  archive : Option String
  chain : Option String
deriving DecidableEq

/-- The private mutable fields of `EvmBatchProcessor` (processor.ts lines 96-101). -/
structure ProcState where
  requests : List BatchRequest
  src : Option DataSource
  blockRange : Option Range
  fields : Option FieldSelection
  running : Bool

/-- The freshly constructed processor (all fields at their initializers). -/
def initialProcState : ProcState :=
  { requests := [], src := none, blockRange := none, fields := none, running := false }

/-- The message of the error thrown by `assertNotRunning` (processor.ts line 198). -/
def notRunningMsg : String := "Settings modifications are not allowed after start of processing"

/-- Source `private add(request, range)` (processor.ts lines 103-108). -/
def ProcState.add (p : ProcState) (request : DataRequest) (range : Option Range) : ProcState :=
  { p with requests := p.requests ++ [{ range := range.getD { lo := 0, hi := none }, request := request }] }

/-- Source `setFields` (processor.ts lines 113-117). -/
def ProcState.setFields (p : ProcState) (f : FieldSelection) : ProcState × Option String :=
  if p.running then (p, some notRunningMsg)
  else ({ p with fields := some f }, none)

/-- The ternary `options.filter?.length ? options.filter : undefined`
(processor.ts line 124): an absent or empty topic filter becomes absent; a
non-empty one is stored as given. -/
def normalizeTopics (filter : Option (List (List String))) : Option (List (List String)) :=
  match filter with
  | some l => if l.length ≠ 0 then some l else none
  | none => none

/-- Source `addLog` (processor.ts lines 119-128).  Note that `options.filter` is only
trimmed to `undefined` when empty; its strings are stored as given. -/
def ProcState.addLog (p : ProcState) (options : LogOptions) : ProcState × Option String :=
  if p.running then (p, some notRunningMsg)
  else
    (p.add
      { includeAllBlocks := false
        logs := some [{ address := toRequestList options.address
                        filter := normalizeTopics options.filter }]
        transactions := none
        fields := none }
      options.range, none)

/-- Source `addTransaction` (processor.ts lines 130-140). -/
def ProcState.addTransaction (p : ProcState) (options : TransactionOptions) : ProcState × Option String :=
  if p.running then (p, some notRunningMsg)
  else
    (p.add
      { includeAllBlocks := false
        logs := none
        transactions := some [{ fromAddress := toRequestList options.fromAddress
                                toAddress := toRequestList options.toAddress
                                sighash := toRequestList options.sighash }]
        fields := none }
      options.range, none)

/-- Source `setPrometheusPort` (processor.ts lines 149-153): the port lands on the
external `PrometheusServer`; the processor's own fields are untouched. -/
def ProcState.setPrometheusPort (p : ProcState) (_port : Nat) : ProcState × Option String :=
  if p.running then (p, some notRunningMsg) else (p, none)

/-- Source `includeAllBlocks` (processor.ts lines 163-167). -/
def ProcState.includeAllBlocks (p : ProcState) (range : Option Range) : ProcState × Option String :=
  if p.running then (p, some notRunningMsg)
  else
    (p.add { includeAllBlocks := true, logs := none, transactions := none, fields := none }
      range, none)

/-- Source `setBlockRange` (processor.ts lines 175-179). -/
def ProcState.setBlockRange (p : ProcState) (range : Option Range) : ProcState × Option String :=
  if p.running then (p, some notRunningMsg) else ({ p with blockRange := range }, none)

/-- Source `setDataSource` (processor.ts lines 190-194). -/
def ProcState.setDataSource (p : ProcState) (src : DataSource) : ProcState × Option String :=
  if p.running then (p, some notRunningMsg) else ({ p with src := some src }, none)

/-- Source `run` (processor.ts lines 308-341): `assertNotRunning` then
`this.running = true`; the subsequent `runProgram` launch drives external
collaborators (`Runner`, database) and does not touch the configuration. -/
def ProcState.run (p : ProcState) : ProcState × Option String :=
  if p.running then (p, some notRunningMsg) else ({ p with running := true }, none)

/-- The `merge` closure inside `getBatchRequests` (processor.ts lines 277-285). -/
def concatRequestLists {T : Type} (a b : Option (List T)) : Option (List T) :=
  let result := a.getD [] ++ b.getD []
  if result.length = 0 then none else some result

/-- Merging two `DataRequest`s (processor.ts lines 277-285): `includeAllBlocks`
is ORed, `logs`/`transactions` are concatenated, `fields` is not set. -/
def mergeDataRequests (a b : DataRequest) : DataRequest :=
  { includeAllBlocks := a.includeAllBlocks || b.includeAllBlocks
    logs := concatRequestLists a.logs b.logs
    transactions := concatRequestLists a.transactions b.transactions
    fields := none }

/-- The post-merge pass of `getBatchRequests` (processor.ts lines 287-291): when
the processor-wide `fields` setting is present it is written into every merged
request. -/
def applyProcessorFields (fields : Option FieldSelection) (reqs : List BatchRequest) :
    List BatchRequest :=
  match fields with
  | some f => reqs.map fun r => { r with request := { r.request with fields := some f } }
  | none => reqs

/-! ### Archive data source (`src/unnamed/part_000`)

The HTTP round trips of `EvmArchive` are embedded as explicit data flow: the
`/query` response to the main batch request and the response to the (possible)
follow-up single-height header query are arguments of `getFinalizedBatch`.
Header/transaction/log wire records keep the fields the claims are about
(`number`/`hash`/`timestamp`, item indices); the remaining optional numeric
header fields, which `mapGatewayBlockHeader` merely converts hex-to-bigint,
are elided. -/

/-- Source `gw.Block`: wire block header. -/
structure GwBlock where
  number : Nat
  hash : String
  timestamp : Option Nat
deriving DecidableEq

/-- Source `gw.Transaction`: wire transaction (identifying field only). -/
structure GwTransaction where
  index : Nat
deriving DecidableEq

/-- Source `gw.Log`: wire log (identifying fields only). -/
structure GwLog where
  index : Nat
  transactionIndex : Nat
deriving DecidableEq

/-- Source `gw.BlockData = {block, transactions, logs}`. -/
structure GwBlockData where
  block : GwBlock
  transactions : List GwTransaction
  logs : List GwLog
deriving DecidableEq

/-- A transaction criterion of a gateway `/query` request. -/
structure GwTxCriterion where
  fromAddress : Option (List String)
  toAddress : Option (List String)
  sighash : Option (List String)
  fieldSelection : FieldSelection

/-- A log criterion of a gateway `/query` request. -/
structure GwLogCriterion where
  address : Option (List String)
  topics : List (List String)
  fieldSelection : FieldSelection

/-- Source `gw.BatchRequest`: the `/query` POST body (part_000 lines 15-21). -/
structure GwBatchRequest where
  fromBlock : Nat
  toBlock : Option Nat
  includeAllBlocks : Bool
  transactions : List GwTxCriterion
  logs : List GwLogCriterion

/-- Source `gw.BatchResponse`: `{data: [[BlockData]], nextBlock, archiveHeight}`. -/
structure GwBatchResponse where
  data : List (List GwBlockData)
  nextBlock : Nat
  archiveHeight : Nat
deriving DecidableEq

/-- Modelled from the spec: `formatId` lives in `src/evm/evm-processor/src/util.ts`,
which is not under `src/`; the glossary describes it as a zero-padded height
joined with a hash prefix.  Heights are padded to 10 digits. -/
def padNum (w : Nat) (n : Nat) : String :=
  let s := toString n
  ⟨List.replicate (w - s.length) '0'⟩ ++ s

/-- Modelled from the spec: `formatId(height, hash)` (glossary). -/
def formatId (height : Nat) (hash : String) : String :=
  padNum 10 height ++ "-" ++ ((hash.drop 2).take 5)

/-- Modelled from the spec: `formatId(height, hash, index)` with a zero-padded
item index (glossary). -/
def formatItemId (height : Nat) (hash : String) (index : Nat) : String :=
  formatId height hash ++ "-" ++ padNum 6 index

/-- Source `EvmBlock` (handler-facing header; modelled fields as for `GwBlock`). -/
structure EvmBlock where
  id : String
  height : Nat
  hash : String
  timestamp : Option Nat
deriving DecidableEq

/-- Source `EvmTransaction` (handler-facing transaction; identifying fields only). -/
structure EvmTransaction where
  id : String
  index : Nat
deriving DecidableEq

/-- Source `EvmLog` (handler-facing log; identifying fields only). -/
structure EvmLog where
  id : String
  index : Nat
  transactionIndex : Nat
deriving DecidableEq

/-- A `BlockItem`: tagged union of transaction items and log items; a log item
optionally carries the matching transaction. -/
inductive Item where
  | transaction (tx : EvmTransaction)
  | log (lg : EvmLog) (tx : Option EvmTransaction)
deriving DecidableEq

/-- Source `FullBlockData = {header, items}`. -/
structure FullBlockData where
  header : EvmBlock
  items : List Item
deriving DecidableEq

/-- Source `mapGatewayBlockHeader` (part_000 lines 144-175): copy `number`/`hash`,
attach the canonical id, carry the (numeric) timestamp when present. -/
def mapGatewayBlockHeader (src : GwBlock) : EvmBlock :=
  { id := formatId src.number src.hash
    height := src.number
    hash := src.hash
    timestamp := src.timestamp }

/-- Source `mapGatewayTransaction` (part_000 lines 178-212, modelled fields only). -/
def mapGatewayTransaction (blockHeight : Nat) (blockHash : String) (src : GwTransaction) :
    EvmTransaction :=
  { id := formatItemId blockHeight blockHash src.index, index := src.index }

/-- Source `mapGatewayLog` (part_000 lines 215-239, modelled fields only). -/
def mapGatewayLog (blockHeight : Nat) (blockHash : String) (src : GwLog) : EvmLog :=
  { id := formatItemId blockHeight blockHash src.index
    index := src.index
    transactionIndex := src.transactionIndex }

/-- The sort key triple behind `blockItemOrder`.  Modelled from the spec:
`blockItemOrder` lives in `src/evm/evm-processor/src/util.ts`, which is not
under `src/`; §4.3 fixes the order as transaction index ascending, then
transactions before logs, then log index ascending. -/
def itemSortKey : Item → Nat × Nat × Nat
  | .transaction tx => (tx.index, 0, 0)
  | .log lg _ => (lg.transactionIndex, 1, lg.index)

/-- Modelled from the spec: `blockItemOrder` as a `≤` test on `itemSortKey`. -/
def blockItemOrder (a b : Item) : Bool :=
  decide (itemSortKey a ≤ itemSortKey b)

/-- Source `mapGatewayBlock` (part_000 lines 116-141): map the header, map and index
the transactions, map the logs attaching the transaction with the matching
index when it was also fetched, and sort the items by `blockItemOrder`. -/
def mapGatewayBlock (src : GwBlockData) : FullBlockData :=
  let header := mapGatewayBlockHeader src.block
  let txs := src.transactions.map (mapGatewayTransaction header.height header.hash)
  let txItems : List Item := txs.map Item.transaction
  let logItems : List Item := src.logs.map fun gl =>
    let lg := mapGatewayLog header.height header.hash gl
    Item.log lg (txs.find? fun t => t.index == lg.transactionIndex)
  { header := header, items := (txItems ++ logItems).mergeSort blockItemOrder }

/-- Source `tryMapGatewayBlock` (part_000 lines 104-113): the modelled mapping is
total, so the error-context wrapper is the identity. -/
def tryMapGatewayBlock (src : GwBlockData) : FullBlockData := mapGatewayBlock src

/-- A closed `{from, to}` batch range (`BatchResponse.range`); `lo` is `from`,
`hi` is `to`. -/
structure NatRange where
  lo : Nat
  hi : Nat
deriving DecidableEq

/-- Source `BatchResponse<FullBlockData>`. -/
structure ArchiveBatch where
  range : NatRange
  blocks : List FullBlockData
  chainHeight : Nat
deriving DecidableEq

/-- The `/query` body issued by `EvmArchive.fetchBlockHeader` (part_000 lines
79-87): the single height, `includeAllBlocks: true`, and one transaction
criterion carrying the caller's `fieldSelection` unchanged. -/
def fetchBlockHeaderQuery (height : Nat) (fieldSelection : FieldSelection) : GwBatchRequest :=
  { fromBlock := height
    toBlock := some height
    includeAllBlocks := true
    transactions := [{ fromAddress := none, toAddress := none, sighash := none
                       fieldSelection := fieldSelection }]
    logs := [] }

/-- Source `EvmArchive.fetchBlockHeader` (part_000 lines 78-91): the response `res2`
to `fetchBlockHeaderQuery height fieldSelection` must hold exactly one block
(two `assert`s); its header is mapped and returned. -/
def fetchBlockHeader (res2 : GwBatchResponse) : Except String EvmBlock :=
  match res2.data with
  | [[bd]] => .ok (mapGatewayBlockHeader bd.block)
  | _ => .error "assertion failed"

/-- The main `/query` body built by `EvmArchive.getFinalizedBatch` (part_000
lines 15-42). -/
def buildGatewayRequest (request : BatchRequest) : GwBatchRequest :=
  let fieldSelection := toFieldSelection request.request.fields
  { fromBlock := request.range.lo
    toBlock := request.range.hi
    includeAllBlocks := request.request.includeAllBlocks
    transactions := (request.request.transactions.getD []).map fun tx =>
      { fromAddress := tx.fromAddress, toAddress := tx.toAddress, sighash := tx.sighash
        fieldSelection := { fieldSelection with log := none } }
    logs := (request.request.logs.getD []).map fun lg =>
      { address := lg.address
        topics := lg.filter.getD []
        fieldSelection :=
          if logTransactionFlag request.request.fields then fieldSelection
          else { fieldSelection with transaction := none } } }

/-- Source `EvmArchive.getFinalizedBatch` (part_000 lines 14-76).  `res` is the
response to `buildGatewayRequest request`; `res2` is the response the archive
would give to the follow-up `fetchBlockHeaderQuery` (consulted only when the
trailing block is missing).  `nextBlock - 1` becomes `range.to`; the mapped
blocks are sorted by height; when the last mapped block does not sit at
`range.to`, a stub `{header, items: []}` is appended. -/
def getFinalizedBatch (request : BatchRequest) (res : GwBatchResponse)
    (res2 : GwBatchResponse) : Except String ArchiveBatch :=
  let lastBlock := res.nextBlock - 1
  let blocks0 := (res.data.map fun bb => bb.map tryMapGatewayBlock).flatten
  let blocks := blocks0.mergeSort fun a b => a.header.height ≤ b.header.height
  if blocks.getLast?.map (fun b => b.header.height) ≠ some lastBlock then
    match fetchBlockHeader res2 with
    | .ok hdr =>
      .ok { range := { lo := request.range.lo, hi := lastBlock }
            blocks := blocks ++ [{ header := hdr, items := [] }]
            chainHeight := res.archiveHeight }
    | .error e => .error e
  else
    .ok { range := { lo := request.range.lo, hi := lastBlock }
          blocks := blocks
          chainHeight := res.archiveHeight }

/-! ### Hot-state change log (`src/typeorm/typeorm-store/src/hot.ts`)

The SQL store is embedded relationally: a store is a list of named tables, a
table is a list of rows, a row is a primary-key `id` plus its non-id columns
in schema order (SQL tables are unordered multisets of rows, so store states
are compared through per-id lookups, `StoreEq` below).  The row mutations the
handler performs through `TypeormDatabase` live in `store.ts`, which is not
under `src/`; they are modelled from the spec (`applyOp` below).  The change
tracking and the rollback engine themselves are translated from `hot.ts`. -/

namespace Hot

/-- The non-id columns of a row: `(column, value)` pairs in schema order
(the `Record<string, any>` pre-images of `hot.ts`; cell values are embedded
as strings). -/
abbrev Fields := List (String × String)

/-- The column names of a field record (`Object.keys`). -/
def fieldKeys (fs : Fields) : List String := fs.map Prod.fst

/-- One `SET column = value` assignment of a SQL `UPDATE`. -/
def setField (fs : Fields) (k v : String) : Fields :=
  if fs.any fun p => p.1 == k then fs.map fun p => if p.1 = k then (k, v) else p
  else fs ++ [(k, v)]

/-- Source `UPDATE ... SET ...` with one assignment per recorded column. -/
def setFields (fs upd : Fields) : Fields :=
  upd.foldl (fun acc kv => setField acc kv.1 kv.2) fs

/-- A table row. -/
structure Row where
  id : String
  fields : Fields
deriving DecidableEq

abbrev Table := List Row

/-- A store: tables keyed by name. -/
abbrev Store := List (String × Table)

/-- Source `SELECT * FROM t WHERE id = i` (at most one row: `id` is the primary key). -/
def lookupId (t : Table) (i : String) : Option Fields :=
  (t.find? fun r => r.id == i).map Row.fields

/-- Whether a row with the given id exists. -/
def hasId (t : Table) (i : String) : Bool := t.any fun r => r.id == i

/-- Source `DELETE FROM t WHERE id = i`. -/
def deleteId (t : Table) (i : String) : Table := t.filter fun r => !(r.id == i)

/-- Source `UPDATE t SET <upd> WHERE id = i`. -/
def updateId (t : Table) (i : String) (upd : Fields) : Table :=
  t.map fun r => if r.id = i then { r with fields := setFields r.fields upd } else r

/-- Source `INSERT INTO t ... VALUES ...` of a single row. -/
def insertRow (t : Table) (r : Row) : Table := t ++ [r]

/-- Modelled from the spec: the store's upsert write (`store.ts`, not under
`src/`) — insert the row, or replace all columns of the existing row with the
same id. -/
def upsertRow (t : Table) (r : Row) : Table :=
  if hasId t r.id then t.map fun x => if x.id = r.id then r else x else t ++ [r]

/-- Read table `n` of the store (an absent table reads as empty). -/
def getTable (s : Store) (n : String) : Table :=
  ((s.find? fun p => p.1 == n).map Prod.snd).getD []

/-- Write table `n` of the store. -/
def setTable (s : Store) (n : String) (t : Table) : Store :=
  if s.any fun p => p.1 == n then s.map fun p => if p.1 = n then (n, t) else p
  else s ++ [(n, t)]

/-- Source `ChangeRecord` (hot.ts lines 5-28): the tagged union stored in
`hot_change_log`. -/
inductive ChangeRecord where
  | insert (table : String) (id : String)
  | update (table : String) (id : String) (fields : Fields)
  | delete (table : String) (id : String) (fields : Fields)
deriving DecidableEq

/-- The `table` component of a change record. -/
def ChangeRecord.table : ChangeRecord → String
  | .insert t _ => t
  | .update t _ _ => t
  | .delete t _ _ => t

/-- Whether a change record is a `delete` record. -/
def ChangeRecord.isDelete : ChangeRecord → Bool
  | .delete _ _ _ => true
  | _ => false

/-- Source `ChangeTracker.fetchEntities` (hot.ts lines 103-108):
`SELECT * FROM t WHERE id = ANY(ids)`, rows in table order. -/
def fetchEntities (s : Store) (table : String) (ids : List String) : List Row :=
  (getTable s table).filter fun r => ids.contains r.id

/-- Source `ChangeTracker.trackInsert` (hot.ts lines 47-56): one `insert` record per
entity. -/
def trackInsert (table : String) (rows : List Row) : List ChangeRecord :=
  rows.map fun r => .insert table r.id

/-- Source `ChangeTracker.trackUpsert` (hot.ts lines 58-87): one up-front SELECT of
the touched rows, then per entity an `update` record carrying the found
pre-image or an `insert` record when the id is absent. -/
def trackUpsert (s : Store) (table : String) (rows : List Row) : List ChangeRecord :=
  let touched := fetchEntities s table (rows.map Row.id)
  rows.map fun r =>
    match touched.find? fun e => e.id == r.id with
    | some e => .update table r.id e.fields
    | none => .insert table r.id

/-- Source `ChangeTracker.trackDelete` (hot.ts lines 89-101): SELECT the rows about
to be deleted and record their full pre-image. -/
def trackDelete (s : Store) (table : String) (ids : List String) : List ChangeRecord :=
  (fetchEntities s table ids).map fun e => .delete table e.id e.fields

/-- One row-level mutation issued through the change tracker during a block. -/
inductive Op where
  | insert (table : String) (rows : List Row)
  | upsert (table : String) (rows : List Row)
  | delete (table : String) (ids : List String)

/-- The change records emitted for one mutation, computed against the store
state *before* the write (as `trackUpsert`/`trackDelete` do). -/
def recordsOf (s : Store) : Op → List ChangeRecord
  | .insert table rows => trackInsert table rows
  | .upsert table rows => trackUpsert s table rows
  | .delete table ids => trackDelete s table ids

/-- Modelled from the spec: the store writes themselves (`store.ts`, not
under `src/`) — bulk insert appends the rows, upsert inserts-or-replaces per
row, delete removes the rows with the given ids. -/
def applyOp (s : Store) : Op → Store
  | .insert table rows => setTable s table (getTable s table ++ rows)
  | .upsert table rows => setTable s table (rows.foldl upsertRow (getTable s table))
  | .delete table ids => setTable s table ((getTable s table).filter fun r => !(ids.contains r.id))

/-- Run one block's worth of tracked mutations: each `Op` first emits its
change records against the current state, then performs its write.  Returns
the block's change log (in emission order, i.e. ascending `index`) and the
final store. -/
def runBlock (s : Store) : List Op → List ChangeRecord × Store
  | [] => ([], s)
  | op :: rest =>
    let r1 := recordsOf s op
    let next := runBlock (applyOp s op) rest
    (r1 ++ next.1, next.2)

/-- The table-level effect of one `rollbackBlock` statement (hot.ts lines
151-179): delete for `insert` records, rewrite the recorded pre-image fields
for `update` records (skipped when no column was recorded), re-insert the
pre-image for `delete` records. -/
def undoRecordTable (t : Table) : ChangeRecord → Table
  | .insert _ i => deleteId t i
  | .update _ i fs => if fs.isEmpty then t else updateId t i fs
  | .delete _ i fs => insertRow t { id := i, fields := fs }

/-- One iteration of the `rollbackBlock` loop on the store. -/
def undoRecord (s : Store) (rec : ChangeRecord) : Store :=
  setTable s rec.table (undoRecordTable (getTable s rec.table) rec)

/-- Source `rollbackBlock` (hot.ts lines 139-182): process the block's change records
sorted by `index DESC` — i.e. the emission list reversed.  (The trailing
`DELETE FROM {schema}.hot_block` touches only the bookkeeping table, not the
entity store modelled here.) -/
def rollbackBlock (recs : List ChangeRecord) (s : Store) : Store :=
  recs.reverse.foldl undoRecord s

/-- A row is well-formed for its table when its columns are exactly the
table's schema, in schema order (what `SELECT *` yields). -/
def RowWF (sch : String → List String) (table : String) (r : Row) : Prop :=
  fieldKeys r.fields = sch table

instance (sch : String → List String) (table : String) (r : Row) :
    Decidable (RowWF sch table r) :=
  inferInstanceAs (Decidable (_ = _))

/-- A table is well-formed when ids are unique (primary key) and every row
matches the schema. -/
def TableWF (sch : String → List String) (table : String) (t : Table) : Prop :=
  (t.map Row.id).Nodup ∧ ∀ r ∈ t, RowWF sch table r

instance (sch : String → List String) (table : String) (t : Table) :
    Decidable (TableWF sch table t) :=
  inferInstanceAs (Decidable (_ ∧ _))

/-- A store is well-formed when every table is. -/
def StoreWF (sch : String → List String) (s : Store) : Prop :=
  ∀ p ∈ s, TableWF sch p.1 p.2

instance (sch : String → List String) (s : Store) : Decidable (StoreWF sch s) :=
  inferInstanceAs (Decidable (∀ p ∈ s, _))

/-- Applicability of a mutation: an insert only inserts fresh, distinct ids
(SQL would reject a duplicate primary key); an upsert touches distinct ids
(one statement may not affect the same row twice); rows match the schema. -/
def OpOK (sch : String → List String) (s : Store) : Op → Prop
  | .insert table rows =>
    (rows.map Row.id).Nodup ∧ ∀ r ∈ rows, RowWF sch table r ∧ hasId (getTable s table) r.id = false
  | .upsert table rows => (rows.map Row.id).Nodup ∧ ∀ r ∈ rows, RowWF sch table r
  | .delete _ _ => True

instance (sch : String → List String) (s : Store) (op : Op) : Decidable (OpOK sch s op) :=
  match op with
  | .insert _ _ => inferInstanceAs (Decidable (_ ∧ _))
  | .upsert _ _ => inferInstanceAs (Decidable (_ ∧ _))
  | .delete _ _ => inferInstanceAs (Decidable True)

/-- Applicability of a whole block of mutations, each against the state the
previous ones produced. -/
def OpsOK (sch : String → List String) : Store → List Op → Prop
  | _, [] => True
  | s, op :: rest => OpOK sch s op ∧ OpsOK sch (applyOp s op) rest

instance instDecidableOpsOK (sch : String → List String) :
    (ops : List Op) → (s : Store) → Decidable (OpsOK sch s ops)
  | [], _ => isTrue trivial
  | op :: rest, s =>
    haveI : Decidable (OpsOK sch (applyOp s op) rest) :=
      instDecidableOpsOK sch rest (applyOp s op)
    inferInstanceAs (Decidable (_ ∧ _))

/-- Extensional equality of tables: the same rows under per-id lookup (SQL
tables are unordered). -/
def TableEq (t1 t2 : Table) : Prop := ∀ i, lookupId t1 i = lookupId t2 i

/-- Extensional equality of stores: every table holds the same rows. -/
def StoreEq (s1 s2 : Store) : Prop :=
  ∀ n i, lookupId (getTable s1 n) i = lookupId (getTable s2 n) i

/-! #### SQL text built by the change tracker and the rollback engine

For the identifier-escaping claim the SQL statements are embedded at the
string level, exactly as the code concatenates them.  The driver escape
itself (`em.connection.driver.escape`, hot.ts lines 185-187) is external
TypeORM code. -/

/-- Modelled from the spec: the store driver's identifier escape (the
PostgreSQL driver behind TypeORM, not under `src/`): wrap the name in double
quotes, doubling embedded quotes. -/
def pgEscape (name : String) : String :=
  "\"" ++ ⟨name.data.foldr (fun c acc => if c = '"' then '"' :: '"' :: acc else c :: acc) []⟩
    ++ "\""

/-- The SQL built by `ChangeTracker.fetchEntities` (hot.ts line 105): the
table name goes through the driver escape. -/
def fetchEntitiesSql (table : String) : String :=
  "SELECT * FROM " ++ pgEscape table ++ " WHERE id = ANY($1::text[])"

/-- The SQL built by `ChangeTracker.writeChangeRows` (hot.ts lines 122-124):
`this.statusSchema` is interpolated as-is, without the driver escape. -/
def writeChangeRowsSql (statusSchema : String) : String :=
  "INSERT INTO " ++ statusSchema ++ ".hot_change_log (block_height, index, change)" ++
    " SELECT block_height, index, change::jsonb" ++
    " FROM unnest($1::int[], $2::int[], $3::text[]) AS i(block_height, index, change)"

/-- The change-log SELECT of `rollbackBlock` (hot.ts lines 146-149). -/
def rollbackSelectSql (statusSchema : String) : String :=
  "SELECT block_height, index, change FROM " ++ pgEscape statusSchema ++
    ".hot_change_log WHERE block_height = ? ORDER BY index DESC"

/-- The DELETE `rollbackBlock` issues for an `insert` record (hot.ts line 156). -/
def rollbackInsertKindSql (table : String) : String :=
  "DELETE FROM " ++ pgEscape table ++ " WHERE id = $1"

/-- The UPDATE `rollbackBlock` issues for an `update` record (hot.ts lines
159-166): one escaped column per recorded field. -/
def rollbackUpdateKindSql (table : String) (columns : List String) : String :=
  "UPDATE " ++ pgEscape table ++ " SET " ++
    String.intercalate ", " (columns.map fun c => pgEscape c ++ " = ?") ++ " WHERE id = ?"

/-- The INSERT `rollbackBlock` issues for a `delete` record (hot.ts lines
170-177): `id` plus the recorded columns, all escaped; the column list joins
with `,` (a JS array inside a template literal), the placeholders with `, `. -/
def rollbackDeleteKindSql (table : String) (columns : List String) : String :=
  let cols := ("id" :: columns).map pgEscape
  "INSERT INTO " ++ pgEscape table ++ " (" ++ String.intercalate "," cols ++
    ") VALUES (" ++ String.intercalate ", " (cols.map fun _ => "?") ++ ")"

/-- The hot-block DELETE closing `rollbackBlock` (hot.ts line 181). -/
def rollbackHotBlockSql (statusSchema : String) : String :=
  "DELETE FROM " ++ pgEscape statusSchema ++ ".hot_block WHERE height = ?"

/-- Modelled from the spec: the same `fetchEntities` statement with every
interpolated identifier routed through the driver escape (§9: "Route every
identifier through the store driver's escape function"). -/
def specFetchEntitiesSql (table : String) : String :=
  "SELECT * FROM " ++ pgEscape table ++ " WHERE id = ANY($1::text[])"

/-- Modelled from the spec: the change-log INSERT as the spec mandates it,
with the status schema identifier escaped. -/
def specWriteChangeRowsSql (statusSchema : String) : String :=
  "INSERT INTO " ++ pgEscape statusSchema ++ ".hot_change_log (block_height, index, change)" ++
    " SELECT block_height, index, change::jsonb" ++
    " FROM unnest($1::int[], $2::int[], $3::text[]) AS i(block_height, index, change)"

/-- Modelled from the spec: the rollback change-log SELECT with the schema
identifier escaped. -/
def specRollbackSelectSql (statusSchema : String) : String :=
  "SELECT block_height, index, change FROM " ++ pgEscape statusSchema ++
    ".hot_change_log WHERE block_height = ? ORDER BY index DESC"

/-- Modelled from the spec: `insert → DELETE FROM {table} WHERE id = ?`
(§4.8) with the table identifier escaped (source placeholder `$1`). -/
def specRollbackInsertKindSql (table : String) : String :=
  "DELETE FROM " ++ pgEscape table ++ " WHERE id = $1"

/-- Modelled from the spec: `update → UPDATE {table} SET {fields} WHERE id = ?`
(§4.8) with table and column identifiers escaped. -/
def specRollbackUpdateKindSql (table : String) (columns : List String) : String :=
  "UPDATE " ++ pgEscape table ++ " SET " ++
    String.intercalate ", " (columns.map fun c => pgEscape c ++ " = ?") ++ " WHERE id = ?"

/-- Modelled from the spec: `delete → INSERT INTO {table} ({cols}) VALUES (...)`
(§4.8) with table and column identifiers escaped. -/
def specRollbackDeleteKindSql (table : String) (columns : List String) : String :=
  let cols := ("id" :: columns).map pgEscape
  "INSERT INTO " ++ pgEscape table ++ " (" ++ String.intercalate "," cols ++
    ") VALUES (" ++ String.intercalate ", " (cols.map fun _ => "?") ++ ")"

/-- Modelled from the spec: the hot-block DELETE with the schema identifier
escaped. -/
def specRollbackHotBlockSql (statusSchema : String) : String :=
  "DELETE FROM " ++ pgEscape statusSchema ++ ".hot_block WHERE height = ?"

end Hot

/-! ### Spec-side characterizations and concrete inputs -/

/-- Modelled from the spec: the list form of a `string | string[]` filter
argument (§6: "Address, topic, and sighash inputs are normalized to lowercase
hex before dispatch"). -/
def argStrings : Option StrArg → List String
  | none => []
  | some (.one s) => [s]
  | some (.many l) => l

/-- The empty field selection `{}`. -/
def demoFS : FieldSelection := { block := none, transaction := none, log := none }

/-- A user selection that explicitly disables the default block field
`timestamp`: `{block: {timestamp: false}}`. -/
def c4Input : FieldSelection :=
  { block := some fun k => if k = "timestamp" then some false else none
    transaction := none
    log := none }

/-- Source `addLog({address: '0xAB', filter: [['0xCD']]})`. -/
def c5LogOptions : LogOptions :=
  { address := some (.one "0xAB"), filter := some [["0xCD"]], range := none }

/-- Source `addTransaction({sighash: '0xA9059CBB'})` (scenario S5). -/
def c5TxOptions : TransactionOptions :=
  { toAddress := none, fromAddress := none, sighash := some (.one "0xA9059CBB"), range := none }

/-- An empty `DataRequest`. -/
def emptyDataRequest : DataRequest :=
  { includeAllBlocks := false, logs := none, transactions := none, fields := none }

/-- A `DataRequest` with one (empty) log criterion. -/
def demoLogReq : LogRequest := { address := none, filter := none }

/-- A wire block header at the given height. -/
def demoGwBlock (n : Nat) : GwBlock := { number := n, hash := "0xabcdef", timestamp := none }

/-- The batch request `{from: 40, to: 50}` with an empty data request. -/
def demoBatchRequest : BatchRequest :=
  { range := { lo := 40, hi := some 50 }, request := emptyDataRequest }

/-- An archive response for `{from: 40, to: 50}`: one block at height 42,
`nextBlock: 51`, `archiveHeight: 100` — no data at the trailing height 50. -/
def demoRes : GwBatchResponse :=
  { data := [[{ block := demoGwBlock 42, transactions := [], logs := [] }]]
    nextBlock := 51
    archiveHeight := 100 }

/-- The follow-up response carrying exactly the header of block 50. -/
def demoRes2 : GwBatchResponse :=
  { data := [[{ block := demoGwBlock 50, transactions := [], logs := [] }]]
    nextBlock := 51
    archiveHeight := 100 }

/-- A one-column schema: every table has the single non-id column `name`. -/
def demoSchema : String → List String := fun _ => ["name"]

/-- A store with one table `item` holding rows `1 ↦ a` and `2 ↦ b`. -/
def demoStore : Hot.Store :=
  [("item", [{ id := "1", fields := [("name", "a")] }, { id := "2", fields := [("name", "b")] }])]

/-- The rows `{id: 1, name: x}` and `{id: 4, name: d}` handed to `trackUpsert`. -/
def demoUpsertRows : List Hot.Row :=
  [{ id := "1", fields := [("name", "x")] }, { id := "4", fields := [("name", "d")] }]

/-- A block of tracked mutations on `demoStore`: insert row 3, upsert rows 1
and 4, delete rows 2 and 3. -/
def demoOps : List Hot.Op :=
  [.insert "item" [{ id := "3", fields := [("name", "c")] }],
   .upsert "item" demoUpsertRows,
   .delete "item" ["2", "3"]]

/-! ## Theorems -/

/-! ### C5 — normalization of filter strings -/

/-- Claim C5, counterexample:  The claim says *all* address, topic, and sighash
strings appear lowercased in the stored data request.  For
`addLog({address: '0xAB', filter: [['0xCD']]})` the stored request carries the
address lowercased but the topic `"0xCD"` verbatim, and `"0xCD"` is not
lowercase. -/
theorem addLog_topic_not_lowercased :
    ((ProcState.addLog initialProcState c5LogOptions).1.requests.map fun r => r.request.logs)
      = [some [{ address := some ["0xab"], filter := some [["0xCD"]] }]]
    ∧ toLowerCase "0xCD" ≠ "0xCD" := by
  constructor
  · decide
  · decide

/-- Claim C5, amended:  For every `addLog`/`addTransaction` call on a
non-running processor, the address, `to`, `from` and sighash strings supplied
by the user appear lowercased in the stored data request (`toRequestList`
lower-cases every entry), while topic filter strings are stored exactly as
given (an empty filter is merely normalized to absent). -/
theorem addLog_addTransaction_lowercase (p : ProcState) (h : p.running = false)
    (v : Option StrArg) (lo : LogOptions) (txo : TransactionOptions)
    (ts : List (List String)) :
    toRequestList v
        = (if (argStrings v).isEmpty then none else some ((argStrings v).map toLowerCase))
    ∧ ((ProcState.addLog p lo).1.requests.getLast?.map fun r => r.request.logs)
        = some (some [{ address := toRequestList lo.address
                        filter := normalizeTopics lo.filter }])
    ∧ ((ProcState.addTransaction p txo).1.requests.getLast?.map fun r => r.request.transactions)
        = some (some [{ fromAddress := toRequestList txo.fromAddress
                        toAddress := toRequestList txo.toAddress
                        sighash := toRequestList txo.sighash }])
    ∧ (ts ≠ [] → normalizeTopics (some ts) = some ts) := by
  refine ⟨?_, ?_, ?_, ?_⟩
  · match v with
    | none => rfl
    | some (.one s) => rfl
    | some (.many l) =>
      cases l with
      | nil => rfl
      | cons a l => simp [toRequestList, argStrings]
  · simp [ProcState.addLog, h, ProcState.add, List.getLast?_concat]
  · simp [ProcState.addTransaction, h, ProcState.add, List.getLast?_concat]
  · intro hts
    simp [normalizeTopics, List.length_eq_zero, hts]

/-- Witness for `addLog_addTransaction_lowercase`: the S5 sighash is stored
as `"0xa9059cbb"` and a non-empty topic filter is preserved verbatim. -/
theorem addLog_addTransaction_lowercase_witness :
    toRequestList (some (.one "0xA9059CBB")) = some ["0xa9059cbb"]
    ∧ normalizeTopics (some [["0xCD"]]) = some [["0xCD"]] := by
  constructor
  · have h := (addLog_addTransaction_lowercase initialProcState rfl
      (some (.one "0xA9059CBB")) c5LogOptions c5TxOptions [["0xCD"]]).1
    rw [h]; decide
  · exact (addLog_addTransaction_lowercase initialProcState rfl
      (some (.one "0xA9059CBB")) c5LogOptions c5TxOptions [["0xCD"]]).2.2.2 (by decide)

/-! ### C3 — always-on fields -/

/-- Claim C3:  Whatever the user selects (including explicitly disabling these
attributes), the upstream field masks force `block.{hash, number}`,
`transaction.index` and `log.{index, transactionIndex}` on. -/
theorem toFieldSelection_always_on (fields : Option FieldSelection) :
    ∃ bs ts ls,
      (toFieldSelection fields).block = some bs
      ∧ bs "hash" = some true ∧ bs "number" = some true
      ∧ (toFieldSelection fields).transaction = some ts
      ∧ ts "index" = some true
      ∧ (toFieldSelection fields).log = some ls
      ∧ ls "index" = some true ∧ ls "transactionIndex" = some true := by
  refine ⟨_, _, _, rfl, ?_, ?_, rfl, ?_, rfl, ?_, ?_⟩ <;> simp [spreadTrue]

/-! ### C4 — idempotence of the field selector -/

/-- Claim C4, counterexample:  The field selector is *not* idempotent: for the
selection `{block: {timestamp: false}}` the first application removes the
default field `timestamp` from the mask, while the second application — seeing
neither `true` nor `false` for `timestamp` — restores it from the defaults. -/
theorem toFieldSelection_not_idempotent :
    toFieldSelection (some (toFieldSelection (some c4Input))) ≠ toFieldSelection (some c4Input) := by
  intro h
  have hob := congrArg (fun f => selOf f.block "timestamp") h
  have hA : selOf (toFieldSelection (some (toFieldSelection (some c4Input)))).block "timestamp"
      = some true := by decide
  have hB : selOf (toFieldSelection (some c4Input)).block "timestamp" = none := by decide
  dsimp only at hob
  rw [hA, hB] at hob
  exact Option.noConfusion hob

/-- A default projection never carries `false`. -/
theorem defaultBlockFields_no_false (k : String) :
    defaultBlockFields k = some true ∨ defaultBlockFields k = none := by
  unfold defaultBlockFields; split <;> simp

/-- A default projection never carries `false`. -/
theorem defaultTransactionFields_no_false (k : String) :
    defaultTransactionFields k = some true ∨ defaultTransactionFields k = none := by
  unfold defaultTransactionFields; split <;> simp

/-- A default projection never carries `false`. -/
theorem defaultLogFields_no_false (k : String) :
    defaultLogFields k = some true ∨ defaultLogFields k = none := by
  unfold defaultLogFields; split <;> simp

/-- Re-merging a merged mask with the defaults is the identity at every key,
provided the defaults never carry `false`, the original selection never
disables a default-enabled key, and the re-merged selector `g` agrees with
the merged mask except possibly at keys where everything is off. -/
theorem spread_merge_idem (d : Selector) (keys : List String) (sel : Option Selector)
    (g : Selector)
    (hd : ∀ k, d k = some true ∨ d k = none)
    (hsel : ∀ k, selOf sel k = some false → d k = none)
    (hg : ∀ k, g k = spreadTrue (mergeDefaultFields d sel) keys k
        ∨ (g k = none ∧ d k = none ∧ spreadTrue (mergeDefaultFields d sel) keys k = none)) :
    spreadTrue (mergeDefaultFields d (some g)) keys
      = spreadTrue (mergeDefaultFields d sel) keys := by
  funext k
  by_cases hk : keys.contains k = true
  · have hmem : k ∈ keys := by simpa using hk
    simp [spreadTrue, hmem]
  · have hnk : keys.contains k = false := by simpa using hk
    rcases hg k with hgl | ⟨hgn, hdn, hmn⟩
    · simp only [spreadTrue, hnk, Bool.false_eq_true, if_false] at hgl ⊢
      simp only [mergeDefaultFields]
      rw [hgl]
      cases sel with
      | none =>
        simp only [mergeDefaultFields]
        rcases hd k with hdk | hdk <;> simp [hdk]
      | some s =>
        simp only [mergeDefaultFields]
        cases hsk : s k with
        | none => rcases hd k with hdk | hdk <;> simp [hdk]
        | some b =>
          cases b
          · have hdk : d k = none := hsel k (by simp [selOf, hsk])
            simp [hdk]
          · simp
    · simp only [spreadTrue, hnk, Bool.false_eq_true, if_false] at hmn ⊢
      rw [hmn]
      simp [mergeDefaultFields, hgn, hdn]

/-- Claim C4, amended:  The field selector *is* idempotent on every selection
that does not explicitly disable a default-projected field:
`toFieldSelection (toFieldSelection f) = toFieldSelection f`. -/
theorem toFieldSelection_idempotent (fields : Option FieldSelection)
    (h : noDisabledDefaults fields) :
    toFieldSelection (some (toFieldSelection fields)) = toFieldSelection fields := by
  obtain ⟨hb, ht, hl⟩ := h
  apply FieldSelection.ext
  · show some _ = some _
    congr 1
    exact spread_merge_idem defaultBlockFields ["hash", "number"]
      (fields.bind FieldSelection.block) _
      defaultBlockFields_no_false hb (fun k => Or.inl rfl)
  · show some _ = some _
    congr 1
    exact spread_merge_idem defaultTransactionFields ["index"]
      (fields.bind FieldSelection.transaction) _
      defaultTransactionFields_no_false ht (fun k => Or.inl rfl)
  · show some _ = some _
    congr 1
    have hsel : ∀ k, selOf (some (removeTransactionKey (selOf (fields.bind FieldSelection.log)))) k
        = some false → defaultLogFields k = none := by
      intro k hk
      by_cases htr : k = "transaction"
      · simp [selOf, removeTransactionKey, htr] at hk
      · simp only [selOf, Option.getD_some, removeTransactionKey, htr, if_false] at hk
        exact hl k hk
    refine spread_merge_idem defaultLogFields ["index", "transactionIndex"]
      (some (removeTransactionKey (selOf (fields.bind FieldSelection.log)))) _
      defaultLogFields_no_false hsel ?_
    intro k
    by_cases htr : k = "transaction"
    · subst htr
      refine Or.inr ⟨by simp [removeTransactionKey], by simp [defaultLogFields], ?_⟩
      simp [spreadTrue, mergeDefaultFields, selOf, removeTransactionKey, defaultLogFields]
    · exact Or.inl (by simp [removeTransactionKey, htr, toFieldSelection, selOf])

/-- Witness for `toFieldSelection_idempotent` at the empty selection. -/
theorem toFieldSelection_idempotent_witness :
    toFieldSelection (some (toFieldSelection none)) = toFieldSelection none :=
  toFieldSelection_idempotent none
    (by refine ⟨?_, ?_, ?_⟩ <;> intro k <;> simp [selOf, emptySelector])

/-! ### C2 / C6 — batch range closure and the trailing-header backfill -/

/-- If the sorted mapped block list ends at height `L`, the raw archive data
contained a block whose wire `number` is `L`. -/
theorem sorted_last_height_mem (res : GwBatchResponse) (L : Nat)
    (h : ((((res.data.map fun bb => bb.map tryMapGatewayBlock).flatten).mergeSort fun a b =>
        a.header.height ≤ b.header.height).getLast?.map fun b => b.header.height) = some L) :
    ∃ src ∈ res.data.flatten, src.block.number = L := by
  obtain ⟨b, hb, hheight⟩ := Option.map_eq_some'.mp h
  have hmem : b ∈ ((res.data.map fun bb => bb.map tryMapGatewayBlock).flatten) :=
    List.mem_mergeSort.mp (List.mem_of_mem_getLast? hb)
  obtain ⟨l, hl, hbl⟩ := List.mem_flatten.mp hmem
  obtain ⟨bb, hbb, hlbb⟩ := List.mem_map.mp hl
  subst hlbb
  obtain ⟨src, hsrc, hbsrc⟩ := List.mem_map.mp hbl
  refine ⟨src, List.mem_flatten.mpr ⟨bb, hbb, hsrc⟩, ?_⟩
  rw [← hheight, ← hbsrc]
  rfl

/-- Claim C2:  `getFinalizedBatch` sets `range.to = nextBlock - 1`; the returned
block list always ends with a block at height `range.to`; and when the archive
returned no data for that trailing height, the appended last block is the stub
`{header, items: []}` built from the freshly fetched header. -/
theorem getFinalizedBatch_range_closure (request : BatchRequest) (res res2 : GwBatchResponse)
    (bd : GwBlockData) (_h1 : 1 ≤ res.nextBlock) (h2 : res2.data = [[bd]])
    (h3 : bd.block.number = res.nextBlock - 1) :
    ∃ batch, getFinalizedBatch request res res2 = Except.ok batch
      ∧ batch.range.hi = res.nextBlock - 1
      ∧ (batch.blocks.getLast?.map fun b => b.header.height) = some (res.nextBlock - 1)
      ∧ ((∀ src ∈ res.data.flatten, src.block.number ≠ res.nextBlock - 1) →
          batch.blocks.getLast? = some { header := mapGatewayBlockHeader bd.block, items := [] }) := by
  simp only [getFinalizedBatch]
  split
  · -- trailing block missing: the stub branch
    simp only [fetchBlockHeader, h2]
    refine ⟨_, rfl, rfl, ?_, ?_⟩
    · rw [List.getLast?_concat]
      simp [mapGatewayBlockHeader, h3]
    · intro _
      rw [List.getLast?_concat]
  · -- the archive already returned the trailing block
    next hcond =>
    rw [not_not] at hcond
    refine ⟨_, rfl, rfl, hcond, ?_⟩
    intro hno
    obtain ⟨src, hsrc, hn⟩ := sorted_last_height_mem res (res.nextBlock - 1) hcond
    exact absurd hn (hno src hsrc)

/-- Witness for `getFinalizedBatch_range_closure`: scenario S2 — the archive
returns one block at height 42 for `{from: 40, to: 50}` with `nextBlock: 51`,
so the batch closes at 50 with a stub built from the fetched header. -/
theorem getFinalizedBatch_range_closure_witness :
    ∃ batch, getFinalizedBatch demoBatchRequest demoRes demoRes2 = Except.ok batch
      ∧ batch.range.hi = demoRes.nextBlock - 1
      ∧ (batch.blocks.getLast?.map fun b => b.header.height) = some (demoRes.nextBlock - 1)
      ∧ ((∀ src ∈ demoRes.data.flatten, src.block.number ≠ demoRes.nextBlock - 1) →
          batch.blocks.getLast?
            = some { header := mapGatewayBlockHeader (demoGwBlock 50), items := [] }) :=
  getFinalizedBatch_range_closure demoBatchRequest demoRes demoRes2
    { block := demoGwBlock 50, transactions := [], logs := [] }
    (by decide) rfl (by decide)

/-- Claim C6, counterexample:  The claim says the follow-up single-height query
asks only for header (block) fields; in fact it carries the batch's full field
selection, whose transaction mask holds `index: true` and whose log mask holds
`transactionIndex: true` — even for the empty user selection. -/
theorem fetchBlockHeaderQuery_not_header_only :
    ((fetchBlockHeaderQuery 50 (toFieldSelection none)).transactions.map
        fun c => selOf c.fieldSelection.transaction "index") = [some true]
    ∧ ((fetchBlockHeaderQuery 50 (toFieldSelection none)).transactions.map
        fun c => selOf c.fieldSelection.log "transactionIndex") = [some true] := by
  constructor <;> decide

/-- Claim C6, amended:  When `getFinalizedBatch` must backfill the trailing
block, the follow-up single-height query carries `includeAllBlocks: true`, the
single queried height, and the batch's *full* field selection (which always
requests at least `transaction.index`), and the appended stub block has an
empty items list. -/
theorem fetchBlockHeaderQuery_spec (fields : Option FieldSelection) (height : Nat)
    (request : BatchRequest) (res res2 : GwBatchResponse) (bd : GwBlockData)
    (h2 : res2.data = [[bd]])
    (hmiss : ∀ src ∈ res.data.flatten, src.block.number ≠ res.nextBlock - 1) :
    (fetchBlockHeaderQuery height (toFieldSelection fields)).includeAllBlocks = true
    ∧ (fetchBlockHeaderQuery height (toFieldSelection fields)).fromBlock = height
    ∧ (fetchBlockHeaderQuery height (toFieldSelection fields)).toBlock = some height
    ∧ ((fetchBlockHeaderQuery height (toFieldSelection fields)).transactions.map
        fun c => c.fieldSelection.transaction) = [(toFieldSelection fields).transaction]
    ∧ (∃ ts, (toFieldSelection fields).transaction = some ts ∧ ts "index" = some true)
    ∧ (fetchBlockHeaderQuery height (toFieldSelection fields)).logs = []
    ∧ ∃ batch, getFinalizedBatch request res res2 = Except.ok batch
        ∧ batch.blocks.getLast?
            = some { header := mapGatewayBlockHeader bd.block, items := [] } := by
  refine ⟨rfl, rfl, rfl, rfl, ⟨_, rfl, by simp [spreadTrue]⟩, rfl, ?_⟩
  simp only [getFinalizedBatch]
  split
  · simp only [fetchBlockHeader, h2]
    exact ⟨_, rfl, List.getLast?_concat _⟩
  · next hcond =>
    rw [not_not] at hcond
    obtain ⟨src, hsrc, hn⟩ := sorted_last_height_mem res (res.nextBlock - 1) hcond
    exact absurd hn (hmiss src hsrc)

/-- Witness for `fetchBlockHeaderQuery_spec` in the S2 scenario. -/
theorem fetchBlockHeaderQuery_spec_witness :
    (fetchBlockHeaderQuery 50 (toFieldSelection none)).includeAllBlocks = true
    ∧ (fetchBlockHeaderQuery 50 (toFieldSelection none)).fromBlock = 50
    ∧ (fetchBlockHeaderQuery 50 (toFieldSelection none)).toBlock = some 50
    ∧ ((fetchBlockHeaderQuery 50 (toFieldSelection none)).transactions.map
        fun c => c.fieldSelection.transaction) = [(toFieldSelection none).transaction]
    ∧ (∃ ts, (toFieldSelection none).transaction = some ts ∧ ts "index" = some true)
    ∧ (fetchBlockHeaderQuery 50 (toFieldSelection none)).logs = []
    ∧ ∃ batch, getFinalizedBatch demoBatchRequest demoRes demoRes2 = Except.ok batch
        ∧ batch.blocks.getLast?
            = some { header := mapGatewayBlockHeader (demoGwBlock 50), items := [] } :=
  fetchBlockHeaderQuery_spec none 50 demoBatchRequest demoRes demoRes2
    { block := demoGwBlock 50, transactions := [], logs := [] }
    rfl (by decide)

/-! ### C7 — merging data requests -/

/-- Claim C7:  Merging two `DataRequest`s concatenates their `logs` and
`transactions` lists (an empty concatenation becomes absent), ORs
`includeAllBlocks`, and the post-merge pass writes the processor-wide
`fields` setting into every merged request. -/
theorem mergeDataRequests_spec :
    (∀ a b : DataRequest,
        (mergeDataRequests a b).includeAllBlocks = (a.includeAllBlocks || b.includeAllBlocks)
      ∧ (a.logs.getD [] ++ b.logs.getD [] = [] → (mergeDataRequests a b).logs = none)
      ∧ (a.logs.getD [] ++ b.logs.getD [] ≠ [] →
          (mergeDataRequests a b).logs = some (a.logs.getD [] ++ b.logs.getD []))
      ∧ (a.transactions.getD [] ++ b.transactions.getD [] = [] →
          (mergeDataRequests a b).transactions = none)
      ∧ (a.transactions.getD [] ++ b.transactions.getD [] ≠ [] →
          (mergeDataRequests a b).transactions
            = some (a.transactions.getD [] ++ b.transactions.getD [])))
    ∧ ∀ f reqs, ∀ r ∈ applyProcessorFields (some f) reqs, r.request.fields = some f := by
  constructor
  · intro a b
    refine ⟨rfl, ?_, ?_, ?_, ?_⟩ <;> intro hc
    · simp [mergeDataRequests, concatRequestLists, List.length_eq_zero, hc]
    · have hlen : ¬(a.logs.getD [] ++ b.logs.getD []).length = 0 := by
        simpa [List.length_eq_zero] using hc
      simp [mergeDataRequests, concatRequestLists, hlen]
      intro h1 h2
      exact hc (by rw [h1, h2]; rfl)
    · simp [mergeDataRequests, concatRequestLists, List.length_eq_zero, hc]
    · have hlen : ¬(a.transactions.getD [] ++ b.transactions.getD []).length = 0 := by
        simpa [List.length_eq_zero] using hc
      simp [mergeDataRequests, concatRequestLists, hlen]
      intro h1 h2
      exact hc (by rw [h1, h2]; rfl)
  · intro f reqs r hr
    simp only [applyProcessorFields, List.mem_map] at hr
    obtain ⟨x, _, hx⟩ := hr
    subst hx
    rfl

/-- Witness for `mergeDataRequests_spec`: merging two one-criterion requests
concatenates the criteria, and the fields pass stamps the processor fields. -/
theorem mergeDataRequests_spec_witness :
    (mergeDataRequests
        { includeAllBlocks := false, logs := some [demoLogReq], transactions := none, fields := none }
        { includeAllBlocks := true, logs := some [demoLogReq], transactions := none, fields := none }).logs
      = some [demoLogReq, demoLogReq]
    ∧ ({ range := { lo := 0, hi := none }
         request := { includeAllBlocks := false, logs := none, transactions := none
                      fields := some demoFS } } : BatchRequest).request.fields = some demoFS := by
  constructor
  · have h := (mergeDataRequests_spec.1
      { includeAllBlocks := false, logs := some [demoLogReq], transactions := none, fields := none }
      { includeAllBlocks := true, logs := some [demoLogReq], transactions := none, fields := none }).2.2.1
      (by decide)
    rw [h]; decide
  · exact mergeDataRequests_spec.2 demoFS
      [{ range := { lo := 0, hi := none }, request := emptyDataRequest }] _
      (by simp [applyProcessorFields, emptyDataRequest])

/-! ### C10 — configuration freeze after `run` -/

/-- Claim C10:  Once `run()` has set `running`, every configuration method
throws the `assertNotRunning` error and returns the state unchanged, and a
second `run()` throws likewise. -/
theorem config_frozen_after_run (p : ProcState) (h : p.running = false) :
    ProcState.run p = ({ p with running := true }, none)
    ∧ (∀ f, ProcState.setFields { p with running := true } f
        = ({ p with running := true }, some notRunningMsg))
    ∧ (∀ lo, ProcState.addLog { p with running := true } lo
        = ({ p with running := true }, some notRunningMsg))
    ∧ (∀ txo, ProcState.addTransaction { p with running := true } txo
        = ({ p with running := true }, some notRunningMsg))
    ∧ (∀ port, ProcState.setPrometheusPort { p with running := true } port
        = ({ p with running := true }, some notRunningMsg))
    ∧ (∀ r, ProcState.includeAllBlocks { p with running := true } r
        = ({ p with running := true }, some notRunningMsg))
    ∧ (∀ r, ProcState.setBlockRange { p with running := true } r
        = ({ p with running := true }, some notRunningMsg))
    ∧ (∀ src, ProcState.setDataSource { p with running := true } src
        = ({ p with running := true }, some notRunningMsg))
    ∧ ProcState.run { p with running := true }
        = ({ p with running := true }, some notRunningMsg) := by
  refine ⟨?_, ?_, ?_, ?_, ?_, ?_, ?_, ?_, ?_⟩ <;>
    simp [ProcState.run, ProcState.setFields, ProcState.addLog, ProcState.addTransaction,
      ProcState.setPrometheusPort, ProcState.includeAllBlocks, ProcState.setBlockRange,
      ProcState.setDataSource, h]

/-! ### C9 — identifier escaping -/

set_option maxRecDepth 4000 in
/-- Claim C9, counterexample:  `ChangeTracker.writeChangeRows` interpolates the
status schema into its INSERT without the driver escape: for the schema
`squid_status` the generated SQL differs from the fully escaped statement and
carries the schema name raw. -/
theorem writeChangeRowsSql_raw_schema :
    Hot.writeChangeRowsSql "squid_status" ≠ Hot.specWriteChangeRowsSql "squid_status"
    ∧ Hot.writeChangeRowsSql "squid_status"
        = "INSERT INTO squid_status.hot_change_log (block_height, index, change)" ++
            " SELECT block_height, index, change::jsonb" ++
            " FROM unnest($1::int[], $2::int[], $3::text[]) AS i(block_height, index, change)" := by
  constructor <;> decide

set_option maxRecDepth 4000 in
/-- Claim C9, amended:  Every table, column, and schema identifier that
`rollbackBlock` and `ChangeTracker.fetchEntities` interpolate into SQL is
routed through the store driver's escape function (the statements coincide
with the spec-mandated fully escaped templates); but `writeChangeRows`
concatenates the status schema as a raw string. -/
theorem sql_escaping_spec :
    (∀ table, Hot.fetchEntitiesSql table = Hot.specFetchEntitiesSql table)
    ∧ (∀ schema, Hot.rollbackSelectSql schema = Hot.specRollbackSelectSql schema)
    ∧ (∀ table, Hot.rollbackInsertKindSql table = Hot.specRollbackInsertKindSql table)
    ∧ (∀ table columns,
        Hot.rollbackUpdateKindSql table columns = Hot.specRollbackUpdateKindSql table columns)
    ∧ (∀ table columns,
        Hot.rollbackDeleteKindSql table columns = Hot.specRollbackDeleteKindSql table columns)
    ∧ (∀ schema, Hot.rollbackHotBlockSql schema = Hot.specRollbackHotBlockSql schema)
    ∧ Hot.writeChangeRowsSql "squid_status"
        = "INSERT INTO squid_status.hot_change_log (block_height, index, change)" ++
            " SELECT block_height, index, change::jsonb" ++
            " FROM unnest($1::int[], $2::int[], $3::text[]) AS i(block_height, index, change)"
    ∧ Hot.writeChangeRowsSql "squid_status" ≠ Hot.specWriteChangeRowsSql "squid_status" :=
  ⟨fun _ => rfl, fun _ => rfl, fun _ => rfl, fun _ _ => rfl, fun _ _ => rfl, fun _ => rfl,
   by decide, by decide⟩

/-- Witness for `config_frozen_after_run` on the freshly constructed
processor. -/
theorem config_frozen_after_run_witness :
    ProcState.run initialProcState = ({ initialProcState with running := true }, none)
    ∧ ProcState.setFields { initialProcState with running := true } demoFS
        = ({ initialProcState with running := true }, some notRunningMsg)
    ∧ ProcState.run { initialProcState with running := true }
        = ({ initialProcState with running := true }, some notRunningMsg) :=
  ⟨(config_frozen_after_run initialProcState rfl).1,
   (config_frozen_after_run initialProcState rfl).2.1 demoFS,
   (config_frozen_after_run initialProcState rfl).2.2.2.2.2.2.2.2⟩

/-! ### C1 / C8 — the change log inverts tracked mutations -/

namespace Hot

theorem lookupId_nil (i : String) : lookupId [] i = none := rfl

theorem lookupId_cons (r : Row) (t : Table) (i : String) :
    lookupId (r :: t) i = if r.id = i then some r.fields else lookupId t i := by
  by_cases h : r.id = i <;> simp [lookupId, List.find?_cons, h]

theorem lookupId_append (t u : Table) (i : String) :
    lookupId (t ++ u) i = (lookupId t i).or (lookupId u i) := by
  induction t with
  | nil => simp [lookupId_nil]
  | cons r t ih =>
    by_cases h : r.id = i
    · simp [lookupId_cons, h]
    · simp [lookupId_cons, h, ih]

theorem lookupId_single (r : Row) (i : String) :
    lookupId [r] i = if r.id = i then some r.fields else none := lookupId_cons r [] i

theorem hasId_eq_false_iff (t : Table) (i : String) :
    hasId t i = false ↔ lookupId t i = none := by
  induction t with
  | nil => simp [hasId, lookupId_nil]
  | cons r t ih =>
    by_cases h : r.id = i
    · simp [hasId, lookupId_cons, h]
    · simp [hasId, lookupId_cons, h, ← ih]

theorem hasId_cons (x : Row) (t : Table) (i : String) :
    hasId (x :: t) i = (x.id == i || hasId t i) := by
  simp [hasId]

theorem lookupId_deleteId (t : Table) (i j : String) :
    lookupId (deleteId t i) j = if j = i then none else lookupId t j := by
  induction t with
  | nil => simp [deleteId, lookupId_nil]
  | cons r t ih =>
    rw [deleteId, List.filter_cons, ← deleteId]
    by_cases hri : r.id = i
    · by_cases hj : j = i
      · subst hj
        simp [hri, ih]
      · have hrj : ¬r.id = j := by rw [hri]; exact fun hh => hj hh.symm
        have hij : ¬i = j := fun hh => hj hh.symm
        simp [hri, hj, ih, lookupId_cons, hrj, hij]
    · by_cases hj : j = i
      · subst hj
        simp [hri, ih, lookupId_cons]
      · simp [hri, hj, ih, lookupId_cons]

theorem lookupId_updateId (t : Table) (i : String) (upd : Fields) (j : String) :
    lookupId (updateId t i upd) j =
      if j = i then (lookupId t j).map (fun fs => setFields fs upd) else lookupId t j := by
  induction t with
  | nil => simp [updateId, lookupId_nil]
  | cons r t ih =>
    rw [updateId, List.map_cons, ← updateId]
    by_cases hri : r.id = i
    · by_cases hj : j = i
      · subst hj
        simp [hri, lookupId_cons, ih]
      · have hrj : ¬r.id = j := by rw [hri]; exact fun hh => hj hh.symm
        have hij : ¬i = j := fun hh => hj hh.symm
        simp [hri, hj, hrj, hij, lookupId_cons, ih]
    · by_cases hj : j = i
      · subst hj
        simp [hri, lookupId_cons, ih]
      · simp [hri, hj, lookupId_cons, ih]

theorem lookupId_replace (t : Table) (r : Row) (j : String) :
    lookupId (t.map fun x => if x.id = r.id then r else x) j
      = if j = r.id then (if hasId t r.id then some r.fields else none)
        else lookupId t j := by
  induction t with
  | nil => simp [lookupId_nil, hasId]
  | cons x t ih =>
    rw [List.map_cons, hasId_cons]
    by_cases hx : x.id = r.id
    · by_cases hj : j = r.id
      · subst hj
        simp [hx, lookupId_cons]
      · have hrj : ¬r.id = j := fun hh => hj hh.symm
        have hxj : ¬x.id = j := by rw [hx]; exact hrj
        simp [hx, hj, hrj, hxj, lookupId_cons, ih]
    · by_cases hj : j = r.id
      · subst hj
        simp [hx, lookupId_cons, ih]
      · simp [hx, hj, lookupId_cons, ih]

theorem lookupId_upsertRow (t : Table) (r : Row) (j : String) :
    lookupId (upsertRow t r) j = if j = r.id then some r.fields else lookupId t j := by
  rw [upsertRow]
  by_cases h : hasId t r.id = true
  · rw [if_pos h, lookupId_replace, h]
    simp
  · have hf : hasId t r.id = false := by simpa using h
    rw [if_neg (by simp [hf]), lookupId_append, lookupId_single]
    by_cases hj : j = r.id
    · subst hj
      rw [(hasId_eq_false_iff t r.id).mp hf]
      simp
    · have hrj : ¬r.id = j := fun hh => hj hh.symm
      simp [hrj, hj]

theorem getTable_nil (n : String) : getTable [] n = [] := rfl

theorem getTable_cons (p : String × Table) (s : Store) (n : String) :
    getTable (p :: s) n = if p.1 = n then p.2 else getTable s n := by
  by_cases h : p.1 = n <;> simp [getTable, List.find?_cons, h]

theorem getTable_mapSet_other (s : Store) (n m : String) (t : Table) (h : ¬m = n) :
    getTable (s.map fun p => if p.1 = n then (n, t) else p) m = getTable s m := by
  induction s with
  | nil => rfl
  | cons p s ih =>
    rw [List.map_cons]
    by_cases hp : p.1 = n
    · have hnm : ¬n = m := fun hh => h hh.symm
      simp [hp, getTable_cons, hnm, ih]
    · simp [hp, getTable_cons, ih]

theorem getTable_mapSet_self (s : Store) (n : String) (t : Table)
    (h : s.any (fun p => p.1 == n) = true) :
    getTable (s.map fun p => if p.1 = n then (n, t) else p) n = t := by
  induction s with
  | nil => simp at h
  | cons p s ih =>
    rw [List.map_cons]
    by_cases hp : p.1 = n
    · simp [hp, getTable_cons]
    · have h2 : s.any (fun p => p.1 == n) = true := by
        rw [List.any_cons] at h
        simpa [hp] using h
      simp [hp, getTable_cons, ih h2]

theorem getTable_append_single_other (s : Store) (n m : String) (t : Table) (h : ¬m = n) :
    getTable (s ++ [(n, t)]) m = getTable s m := by
  induction s with
  | nil =>
    have hnm : ¬n = m := fun hh => h hh.symm
    simp [getTable_cons, hnm, getTable_nil]
  | cons p s ih => simp [getTable_cons, ih]

theorem getTable_append_single_self (s : Store) (n : String) (t : Table)
    (h : s.any (fun p => p.1 == n) = false) :
    getTable (s ++ [(n, t)]) n = t := by
  induction s with
  | nil => simp [getTable_cons]
  | cons p s ih =>
    rw [List.any_cons] at h
    have hp : ¬p.1 = n := by intro hh; simp [hh] at h
    have h2 : s.any (fun p => p.1 == n) = false := by simpa [hp] using h
    simp [getTable_cons, hp, ih h2]

theorem getTable_setTable (s : Store) (n m : String) (t : Table) :
    getTable (setTable s n t) m = if m = n then t else getTable s m := by
  rw [setTable]
  by_cases hany : s.any (fun p => p.1 == n) = true
  · rw [if_pos hany]
    by_cases h : m = n
    · subst h
      rw [if_pos rfl, getTable_mapSet_self s m t hany]
    · rw [if_neg h, getTable_mapSet_other s n m t h]
  · have hf : s.any (fun p => p.1 == n) = false := Bool.eq_false_iff.mpr hany
    rw [if_neg hany]
    by_cases h : m = n
    · subst h
      rw [if_pos rfl, getTable_append_single_self s m t hf]
    · rw [if_neg h, getTable_append_single_other s n m t h]

theorem getTable_setTable_self (s : Store) (n : String) (t : Table) :
    getTable (setTable s n t) n = t := by
  rw [getTable_setTable, if_pos rfl]

theorem any_key_mapSet (s : Store) (n : String) (t : Table) :
    (s.map fun p => if p.1 = n then (n, t) else p).any (fun p => p.1 == n)
      = s.any (fun p => p.1 == n) := by
  induction s with
  | nil => rfl
  | cons p s ih =>
    rw [List.map_cons, List.any_cons, List.any_cons, ih]
    by_cases hp : p.1 = n <;> simp [hp]

theorem mapSet_mapSet (s : Store) (n : String) (t u : Table) :
    ((s.map fun p => if p.1 = n then (n, t) else p).map fun p => if p.1 = n then (n, u) else p)
      = s.map fun p => if p.1 = n then (n, u) else p := by
  induction s with
  | nil => rfl
  | cons p s ih =>
    rw [List.map_cons, List.map_cons, List.map_cons, ih]
    by_cases hp : p.1 = n <;> simp [hp]

theorem mapSet_eq_self (s : Store) (n : String) (u : Table)
    (h : s.any (fun p => p.1 == n) = false) :
    s.map (fun p => if p.1 = n then (n, u) else p) = s := by
  induction s with
  | nil => rfl
  | cons p s ih =>
    rw [List.any_cons] at h
    have hp : ¬p.1 = n := by intro hh; simp [hh] at h
    have h2 : s.any (fun p => p.1 == n) = false := by simpa [hp] using h
    rw [List.map_cons, if_neg hp, ih h2]

theorem setTable_setTable (s : Store) (n : String) (t u : Table) :
    setTable (setTable s n t) n u = setTable s n u := by
  by_cases hany : s.any (fun p => p.1 == n) = true
  · have h1 : setTable s n t = s.map fun p => if p.1 = n then (n, t) else p := by
      rw [setTable, if_pos hany]
    have h2 : setTable s n u = s.map fun p => if p.1 = n then (n, u) else p := by
      rw [setTable, if_pos hany]
    rw [h1, h2, setTable, any_key_mapSet, if_pos hany, mapSet_mapSet]
  · have hf : s.any (fun p => p.1 == n) = false := Bool.eq_false_iff.mpr hany
    have h1 : setTable s n t = s ++ [(n, t)] := by rw [setTable, if_neg hany]
    rw [h1, setTable]
    have hap : ((s ++ [(n, t)]).any fun p => p.1 == n) = true := by
      rw [List.any_append]
      simp
    rw [if_pos hap, List.map_append, mapSet_eq_self s n u hf, setTable, if_neg hany]
    simp

theorem storeEq_refl (s : Store) : StoreEq s s := fun _ _ => rfl

theorem storeEq_trans {a b c : Store} (h1 : StoreEq a b) (h2 : StoreEq b c) : StoreEq a c :=
  fun n i => (h1 n i).trans (h2 n i)

theorem storeEq_setTable_getTable (s : Store) (n : String) :
    StoreEq (setTable s n (getTable s n)) s := by
  intro m i
  rw [getTable_setTable]
  by_cases h : m = n
  · subst h
    rw [if_pos rfl]
  · rw [if_neg h]

theorem tableEq_undoRecordTable {t1 t2 : Table} (h : TableEq t1 t2) (rec : ChangeRecord) :
    TableEq (undoRecordTable t1 rec) (undoRecordTable t2 rec) := by
  intro j
  cases rec with
  | insert table i =>
    simp only [undoRecordTable]
    rw [lookupId_deleteId, lookupId_deleteId, h j]
  | update table i fs =>
    simp only [undoRecordTable]
    by_cases he : fs.isEmpty
    · rw [if_pos he, if_pos he]
      exact h j
    · rw [if_neg he, if_neg he, lookupId_updateId, lookupId_updateId, h j]
  | delete table i fs =>
    simp only [undoRecordTable, insertRow]
    rw [lookupId_append, lookupId_append, h j]

theorem storeEq_undoRecord {s1 s2 : Store} (h : StoreEq s1 s2) (rec : ChangeRecord) :
    StoreEq (undoRecord s1 rec) (undoRecord s2 rec) := by
  intro n i
  rw [undoRecord, undoRecord, getTable_setTable, getTable_setTable]
  by_cases hn : n = rec.table
  · rw [if_pos hn, if_pos hn]
    exact tableEq_undoRecordTable (fun j => h rec.table j) rec i
  · rw [if_neg hn, if_neg hn]
    exact h n i

theorem storeEq_undo (recs : List ChangeRecord) {s1 s2 : Store} (h : StoreEq s1 s2) :
    StoreEq (recs.foldl undoRecord s1) (recs.foldl undoRecord s2) := by
  induction recs generalizing s1 s2 with
  | nil => exact h
  | cons rec recs ih => exact ih (storeEq_undoRecord h rec)

theorem undo_records_sameTable (recs : List ChangeRecord) (n : String)
    (h : ∀ rec ∈ recs, rec.table = n) (s : Store) (t : Table) :
    recs.foldl undoRecord (setTable s n t) = setTable s n (recs.foldl undoRecordTable t) := by
  induction recs generalizing t with
  | nil => rfl
  | cons rec recs ih =>
    have hrec : rec.table = n := h rec (List.mem_cons_self rec recs)
    rw [List.foldl_cons, List.foldl_cons, undoRecord, hrec, getTable_setTable_self,
      setTable_setTable]
    exact ih (fun r hr => h r (List.mem_cons_of_mem rec hr)) (undoRecordTable t rec)

theorem fieldKeys_nil : fieldKeys [] = [] := rfl

theorem map_keep_of_no_key (f : Fields) (k v : String) (h : ∀ q ∈ f, ¬q.1 = k) :
    f.map (fun p => if p.1 = k then (k, v) else p) = f := by
  induction f with
  | nil => rfl
  | cons p f ih =>
    rw [List.map_cons, if_neg (h p (List.mem_cons_self p f)),
      ih fun q hq => h q (List.mem_cons_of_mem p hq)]

theorem setField_cons_ne (k0 v0 k v : String) (f : Fields) (h : ¬k0 = k) :
    setField ((k0, v0) :: f) k v = (k0, v0) :: setField f k v := by
  rw [setField, setField, List.any_cons]
  have hb : (((k0, v0) : String × String).1 == k) = false := by simpa using h
  rw [hb, Bool.false_or]
  by_cases hany : f.any (fun p => p.1 == k) = true
  · rw [if_pos hany, if_pos hany, List.map_cons, if_neg h]
  · rw [if_neg hany, if_neg hany, List.cons_append]

theorem setFields_cons (fs : Fields) (q : String × String) (upd : Fields) :
    setFields fs (q :: upd) = setFields (setField fs q.1 q.2) upd := rfl

theorem setFields_cons_notMem (k v : String) (f upd : Fields) (h : k ∉ fieldKeys upd) :
    setFields ((k, v) :: f) upd = (k, v) :: setFields f upd := by
  induction upd generalizing f with
  | nil => rfl
  | cons q upd ih =>
    have hqk : ¬k = q.1 := by
      intro hh
      exact h (hh ▸ List.mem_cons_self q.1 (fieldKeys upd) : k ∈ q.1 :: fieldKeys upd)
    have hk2 : k ∉ fieldKeys upd := fun hh => h (List.mem_cons_of_mem q.1 hh)
    rw [setFields_cons, setField_cons_ne k v q.1 q.2 f hqk, ih _ hk2, setFields_cons]

theorem setFields_eq_self (f g : Fields) (hkeys : fieldKeys f = fieldKeys g)
    (hnodup : (fieldKeys g).Nodup) : setFields f g = g := by
  induction g generalizing f with
  | nil =>
    cases f with
    | nil => rfl
    | cons p f => simp [fieldKeys] at hkeys
  | cons q g ih =>
    cases f with
    | nil => simp [fieldKeys] at hkeys
    | cons p f =>
      rw [fieldKeys, List.map_cons] at hkeys
      rw [fieldKeys, List.map_cons] at hkeys
      injection hkeys with h1 h2
      rw [fieldKeys, List.map_cons, List.nodup_cons] at hnodup
      obtain ⟨hq1, hnd2⟩ := hnodup
      rw [setFields_cons]
      have hsf : setField (p :: f) q.1 q.2 = (q.1, q.2) :: f := by
        rw [setField, List.any_cons]
        have hb : (p.1 == q.1) = true := by simpa using h1
        rw [hb, Bool.true_or, if_pos rfl, List.map_cons, if_pos h1,
          map_keep_of_no_key f q.1 q.2]
        intro x hx hxk
        apply hq1
        rw [← h2]
        exact hxk ▸ List.mem_map_of_mem Prod.fst hx
      rw [hsf, setFields_cons_notMem q.1 q.2 f g hq1, ih f h2 hnd2]

theorem hasId_eq_true_iff_mem (t : Table) (i : String) :
    hasId t i = true ↔ i ∈ t.map Row.id := by
  simp only [hasId, List.any_eq_true, List.mem_map]
  constructor
  · rintro ⟨r, hr, hb⟩
    exact ⟨r, hr, by simpa using hb⟩
  · rintro ⟨r, hr, hb⟩
    exact ⟨r, hr, by simpa using hb⟩

theorem hasId_eq_false_iff_not_mem (t : Table) (i : String) :
    hasId t i = false ↔ i ∉ t.map Row.id := by
  rw [Bool.eq_false_iff, Ne, hasId_eq_true_iff_mem]

theorem tableWF_getTable {sch : String → List String} {s : Store} (h : StoreWF sch s)
    (n : String) : TableWF sch n (getTable s n) := by
  rw [getTable]
  cases hf : s.find? (fun p => p.1 == n) with
  | none => exact ⟨List.nodup_nil, by simp⟩
  | some p =>
    have hp := List.mem_of_find?_eq_some hf
    have hpn : p.1 = n := by simpa using List.find?_some hf
    have hWF := h p hp
    rw [hpn] at hWF
    simpa using hWF

theorem storeWF_setTable {sch : String → List String} {s : Store} (h : StoreWF sch s)
    {n : String} {t : Table} (ht : TableWF sch n t) : StoreWF sch (setTable s n t) := by
  intro p hp
  rw [setTable] at hp
  by_cases hany : s.any (fun p => p.1 == n) = true
  · rw [if_pos hany] at hp
    obtain ⟨q, hq, hpq⟩ := List.mem_map.mp hp
    by_cases hqn : q.1 = n
    · rw [if_pos hqn] at hpq
      rw [← hpq]
      exact ht
    · rw [if_neg hqn] at hpq
      rw [← hpq]
      exact h q hq
  · rw [if_neg hany] at hp
    rcases List.mem_append.mp hp with hin | hsingle
    · exact h p hin
    · rw [List.mem_singleton.mp hsingle]
      exact ht

theorem ids_replace (t : Table) (r : Row) :
    (t.map fun x => if x.id = r.id then r else x).map Row.id = t.map Row.id := by
  induction t with
  | nil => rfl
  | cons x t ih =>
    rw [List.map_cons, List.map_cons, List.map_cons, ih]
    by_cases hx : x.id = r.id <;> simp [hx]

theorem tableWF_upsertRow {sch : String → List String} {n : String} {t : Table} {r : Row}
    (ht : TableWF sch n t) (hr : RowWF sch n r) : TableWF sch n (upsertRow t r) := by
  obtain ⟨hnd, hWF⟩ := ht
  rw [upsertRow]
  by_cases hh : hasId t r.id = true
  · rw [if_pos hh]
    refine ⟨by rw [ids_replace]; exact hnd, ?_⟩
    intro x hx
    obtain ⟨q, hq, hqx⟩ := List.mem_map.mp hx
    by_cases hqid : q.id = r.id
    · rw [if_pos hqid] at hqx
      rw [← hqx]
      exact hr
    · rw [if_neg hqid] at hqx
      rw [← hqx]
      exact hWF q hq
  · rw [if_neg hh]
    have hfresh : r.id ∉ t.map Row.id :=
      (hasId_eq_false_iff_not_mem t r.id).mp (Bool.eq_false_iff.mpr hh)
    constructor
    · rw [List.map_append]
      rw [List.nodup_append]
      refine ⟨hnd, List.nodup_singleton r.id, ?_⟩
      intro a ha hb
      have hb2 : a = r.id := by simpa using hb
      rw [hb2] at ha
      exact hfresh ha
    · intro x hx
      rcases List.mem_append.mp hx with hin | hsingle
      · exact hWF x hin
      · rw [List.mem_singleton.mp hsingle]
        exact hr

theorem tableWF_foldl_upsert {sch : String → List String} {n : String} (rows : List Row)
    {t : Table} (ht : TableWF sch n t) (hrows : ∀ r ∈ rows, RowWF sch n r) :
    TableWF sch n (rows.foldl upsertRow t) := by
  induction rows generalizing t with
  | nil => exact ht
  | cons r rows ih =>
    rw [List.foldl_cons]
    exact ih (tableWF_upsertRow ht (hrows r (List.mem_cons_self r rows)))
      (fun x hx => hrows x (List.mem_cons_of_mem r hx))

theorem tableWF_append {sch : String → List String} {n : String} {t : Table} {rows : List Row}
    (ht : TableWF sch n t) (hnd : (rows.map Row.id).Nodup)
    (hrows : ∀ r ∈ rows, RowWF sch n r)
    (hfresh : ∀ r ∈ rows, hasId t r.id = false) : TableWF sch n (t ++ rows) := by
  obtain ⟨htnd, htWF⟩ := ht
  constructor
  · rw [List.map_append, List.nodup_append]
    refine ⟨htnd, hnd, ?_⟩
    intro a ha hb
    obtain ⟨r, hr, hrid⟩ := List.mem_map.mp hb
    have := (hasId_eq_false_iff_not_mem t r.id).mp (hfresh r hr)
    rw [hrid] at this
    exact this ha
  · intro x hx
    rcases List.mem_append.mp hx with hin | hin
    · exact htWF x hin
    · exact hrows x hin

theorem tableWF_filter {sch : String → List String} {n : String} {t : Table}
    (ht : TableWF sch n t) (p : Row → Bool) : TableWF sch n (t.filter p) := by
  obtain ⟨hnd, hWF⟩ := ht
  exact ⟨List.Nodup.sublist (List.Sublist.map Row.id (List.filter_sublist t)) hnd,
    fun r hr => hWF r (List.mem_of_mem_filter hr)⟩

theorem storeWF_applyOp {sch : String → List String} {s : Store} (h : StoreWF sch s)
    {op : Op} (hop : OpOK sch s op) : StoreWF sch (applyOp s op) := by
  cases op with
  | insert table rows =>
    obtain ⟨hnd, hrows⟩ := hop
    exact storeWF_setTable h
      (tableWF_append (tableWF_getTable h table) hnd
        (fun r hr => (hrows r hr).1) (fun r hr => (hrows r hr).2))
  | upsert table rows =>
    obtain ⟨hnd, hrows⟩ := hop
    exact storeWF_setTable h (tableWF_foldl_upsert rows (tableWF_getTable h table) hrows)
  | delete table ids =>
    exact storeWF_setTable h (tableWF_filter (tableWF_getTable h table) _)

theorem find?_filter_mem (t : Table) (ids : List String) (i : String) (h : i ∈ ids) :
    (t.filter fun r => ids.contains r.id).find? (fun e => e.id == i)
      = t.find? (fun e => e.id == i) := by
  induction t with
  | nil => rfl
  | cons r t ih =>
    rw [List.filter_cons]
    by_cases hc : ids.contains r.id = true
    · rw [if_pos hc]
      by_cases hri : r.id = i
      · have hb : ((fun e => e.id == i) r) = true := by simpa using hri
        rw [@List.find?_cons_of_pos _ (fun e => e.id == i) r _ hb,
          @List.find?_cons_of_pos _ (fun e => e.id == i) r _ hb]
      · have hb : ¬((fun e => e.id == i) r) = true := by simpa using hri
        rw [@List.find?_cons_of_neg _ (fun e => e.id == i) r _ hb,
          @List.find?_cons_of_neg _ (fun e => e.id == i) r _ hb, ih]
    · rw [if_neg hc]
      have hcf : ids.contains r.id = false := Bool.eq_false_iff.mpr hc
      have hri : ¬r.id = i := by
        intro hh
        rw [hh] at hcf
        have hmem : ids.contains i = true := by simpa using h
        rw [hmem] at hcf
        exact Bool.noConfusion hcf
      have hb : ¬((fun e => e.id == i) r) = true := by simpa using hri
      rw [@List.find?_cons_of_neg _ (fun e => e.id == i) r _ hb, ih]

theorem trackUpsert_eq_lookup (s : Store) (table : String) (rows : List Row) :
    trackUpsert s table rows = rows.map fun r =>
      match lookupId (getTable s table) r.id with
      | some fs => ChangeRecord.update table r.id fs
      | none => ChangeRecord.insert table r.id := by
  rw [trackUpsert]
  apply List.map_congr_left
  intro r hr
  have hmem : r.id ∈ rows.map Row.id := List.mem_map_of_mem Row.id hr
  rw [fetchEntities, find?_filter_mem _ _ _ hmem]
  cases hf : (getTable s table).find? (fun e => e.id == r.id) <;> simp [lookupId, hf]

theorem deleteId_append_fresh (t : Table) (r : Row) (h : hasId t r.id = false) :
    deleteId (t ++ [r]) r.id = t := by
  rw [deleteId, List.filter_append]
  have h1 : t.filter (fun x => !(x.id == r.id)) = t := by
    rw [List.filter_eq_self]
    intro x hx
    have hne : ¬x.id = r.id := by
      intro hh
      have := (hasId_eq_false_iff_not_mem t r.id).mp h
      exact this (hh ▸ List.mem_map_of_mem Row.id hx)
    simpa using hne
  have h2 : List.filter (fun x => !(x.id == r.id)) [r] = [] := by
    simp
  rw [h1, h2, List.append_nil]

theorem hasId_append_single (t : Table) (r : Row) (i : String) :
    hasId (t ++ [r]) i = (hasId t i || (r.id == i)) := by
  simp [hasId, List.any_append]

theorem lookupId_eq_none_iff (t : Table) (i : String) :
    lookupId t i = none ↔ ∀ r ∈ t, ¬r.id = i := by
  rw [← hasId_eq_false_iff, hasId, List.any_eq_false]
  constructor
  · intro h r hr
    simpa using h r hr
  · intro h r hr
    simpa using h r hr

theorem lookupId_of_unique (u : Table) (i : String) (fs : Fields)
    (hex : ∃ x ∈ u, x.id = i)
    (huniq : ∀ x ∈ u, x.id = i → x.fields = fs) :
    lookupId u i = some fs := by
  induction u with
  | nil =>
    obtain ⟨x, hx, _⟩ := hex
    cases hx
  | cons y u ih =>
    by_cases hy : y.id = i
    · rw [lookupId_cons, if_pos hy, huniq y (List.mem_cons_self y u) hy]
    · rw [lookupId_cons, if_neg hy]
      apply ih
      · obtain ⟨x, hx, hxi⟩ := hex
        rcases List.mem_cons.mp hx with rfl | hx2
        · exact absurd hxi hy
        · exact ⟨x, hx2, hxi⟩
      · intro x hx hxi
        exact huniq x (List.mem_cons_of_mem y hx) hxi

theorem row_unique_of_nodup {t : Table} (hnd : (t.map Row.id).Nodup) {x y : Row}
    (hx : x ∈ t) (hy : y ∈ t) (h : x.id = y.id) : x = y :=
  List.inj_on_of_nodup_map hnd hx hy h

theorem lookupId_eq_of_mem_nodup {t : Table} (hnd : (t.map Row.id).Nodup) {x : Row}
    (hx : x ∈ t) : lookupId t x.id = some x.fields := by
  induction t with
  | nil => cases hx
  | cons y t ih =>
    rw [List.map_cons, List.nodup_cons] at hnd
    rcases List.mem_cons.mp hx with rfl | hx2
    · rw [lookupId_cons, if_pos rfl]
    · by_cases hxy : y.id = x.id
      · exact absurd (hxy ▸ List.mem_map_of_mem Row.id hx2) hnd.1
      · rw [lookupId_cons, if_neg hxy]
        exact ih hnd.2 hx2

theorem find?_filter_of_pred (t : Table) (q : Row → Bool) (i : String)
    (h : ∀ r : Row, r.id = i → q r = true) :
    (t.filter q).find? (fun e => e.id == i) = t.find? (fun e => e.id == i) := by
  induction t with
  | nil => rfl
  | cons r t ih =>
    rw [List.filter_cons]
    by_cases hq : q r = true
    · rw [if_pos hq]
      by_cases hri : r.id = i
      · have hb : ((fun e => e.id == i) r) = true := by simpa using hri
        rw [@List.find?_cons_of_pos _ (fun e => e.id == i) r _ hb,
          @List.find?_cons_of_pos _ (fun e => e.id == i) r _ hb]
      · have hb : ¬((fun e => e.id == i) r) = true := by simpa using hri
        rw [@List.find?_cons_of_neg _ (fun e => e.id == i) r _ hb,
          @List.find?_cons_of_neg _ (fun e => e.id == i) r _ hb, ih]
    · rw [if_neg hq]
      have hri : ¬r.id = i := fun hh => hq (h r hh)
      have hb : ¬((fun e => e.id == i) r) = true := by simpa using hri
      rw [@List.find?_cons_of_neg _ (fun e => e.id == i) r _ hb, ih]

theorem undo_insert_table (n : String) (t : Table) (rows : List Row)
    (hfresh : ∀ r ∈ rows, hasId t r.id = false) (hnd : (rows.map Row.id).Nodup) :
    List.foldr (fun rec acc => undoRecordTable acc rec) (t ++ rows)
      (rows.map fun r => ChangeRecord.insert n r.id) = t := by
  induction rows generalizing t with
  | nil => simp
  | cons r rows ih =>
    rw [List.map_cons, List.nodup_cons] at hnd
    obtain ⟨hrid, hnd2⟩ := hnd
    rw [List.map_cons, List.foldr_cons]
    have happ : t ++ r :: rows = (t ++ [r]) ++ rows := by simp
    rw [happ]
    have hfresh2 : ∀ x ∈ rows, hasId (t ++ [r]) x.id = false := by
      intro x hx
      have h1 : hasId t x.id = false := hfresh x (List.mem_cons_of_mem r hx)
      have hne : ¬r.id = x.id := fun hh => hrid (hh ▸ List.mem_map_of_mem Row.id hx)
      rw [hasId_append_single, h1]
      simpa using hne
    rw [ih (t ++ [r]) hfresh2 hnd2]
    simp only [undoRecordTable]
    exact deleteId_append_fresh t r (hfresh r (List.mem_cons_self r rows))

theorem row_ext {x y : Row} (h1 : x.id = y.id) (h2 : x.fields = y.fields) : x = y := by
  cases x
  cases y
  cases h1
  cases h2
  rfl

theorem fields_nil_of_keys_nil {f : Fields} (h : fieldKeys f = []) : f = [] := by
  cases f with
  | nil => rfl
  | cons p f => simp [fieldKeys] at h

theorem update_replace_restore (sch : String → List String) (n : String)
    (hsch : (sch n).Nodup) {t : Table} (htWF : TableWF sch n t) {r : Row}
    (hr : RowWF sch n r) {fs : Fields} (hl : lookupId t r.id = some fs) :
    undoRecordTable (upsertRow t r) (ChangeRecord.update n r.id fs) = t := by
  obtain ⟨hnd, hWF⟩ := htWF
  have hhas : hasId t r.id = true := by
    cases hh : hasId t r.id with
    | true => rfl
    | false =>
      rw [(hasId_eq_false_iff t r.id).mp hh] at hl
      exact Option.noConfusion hl
  have hkeysfs : fieldKeys fs = sch n := by
    rw [lookupId] at hl
    cases hf : t.find? (fun x => x.id == r.id) with
    | none => rw [hf] at hl; exact Option.noConfusion hl
    | some e =>
      rw [hf] at hl
      have he : e ∈ t := List.mem_of_find?_eq_some hf
      have hef : e.fields = fs := by simpa using hl
      rw [← hef]
      exact hWF e he
  rw [upsertRow, if_pos hhas]
  simp only [undoRecordTable]
  by_cases hemp : fs.isEmpty = true
  · rw [if_pos hemp]
    have hfs : fs = [] := by
      cases fs with
      | nil => rfl
      | cons a l => simp at hemp
    have hschn : sch n = [] := by rw [← hkeysfs, hfs]; rfl
    have hid : ∀ x ∈ t, (if x.id = r.id then r else x) = x := by
      intro x hx
      by_cases hxid : x.id = r.id
      · rw [if_pos hxid]
        have hxf : x.fields = [] := by
          have hk := hWF x hx
          rw [RowWF, hschn] at hk
          exact fields_nil_of_keys_nil hk
        have hrf : r.fields = [] := by
          have hk := hr
          rw [RowWF, hschn] at hk
          exact fields_nil_of_keys_nil hk
        exact row_ext hxid.symm (hrf.trans hxf.symm)
      · rw [if_neg hxid]
    exact (List.map_congr_left hid).trans (List.map_id t)
  · rw [if_neg hemp]
    rw [updateId, List.map_map]
    have hid : ∀ x ∈ t,
        ((fun rr => if rr.id = r.id then { rr with fields := setFields rr.fields fs } else rr) ∘
          fun x => if x.id = r.id then r else x) x = x := by
      intro x hx
      by_cases hxid : x.id = r.id
      · have hxfs : x.fields = fs := by
          have h1 := lookupId_eq_of_mem_nodup hnd hx
          rw [hxid] at h1
          exact (Option.some.inj (hl.symm.trans h1)).symm
        have hset : setFields r.fields fs = fs :=
          setFields_eq_self r.fields fs (by rw [hr, ← hkeysfs]) (by rw [hkeysfs]; exact hsch)
        simp only [Function.comp_apply]
        rw [if_pos hxid, if_pos rfl]
        refine row_ext ?_ ?_
        · exact hxid.symm
        · show setFields r.fields fs = x.fields
          rw [hset, hxfs]
      · simp only [Function.comp_apply]
        rw [if_neg hxid, if_neg hxid]
    exact (List.map_congr_left hid).trans (List.map_id t)

theorem undo_upsert_table (sch : String → List String) (n : String) (hsch : (sch n).Nodup)
    (rows : List Row) :
    ∀ (t : Table), TableWF sch n t → (rows.map Row.id).Nodup →
      (∀ r ∈ rows, RowWF sch n r) →
      List.foldr (fun rec acc => undoRecordTable acc rec) (rows.foldl upsertRow t)
        (rows.map fun r =>
          match lookupId t r.id with
          | some fs => ChangeRecord.update n r.id fs
          | none => ChangeRecord.insert n r.id) = t := by
  induction rows with
  | nil =>
    intro t _ _ _
    rfl
  | cons r rows ih =>
    intro t htWF hnd hrows
    rw [List.map_cons, List.nodup_cons] at hnd
    obtain ⟨hrid, hnd2⟩ := hnd
    rw [List.map_cons, List.foldr_cons, List.foldl_cons]
    have hrWF := hrows r (List.mem_cons_self r rows)
    have hrows2 : ∀ x ∈ rows, RowWF sch n x := fun x hx => hrows x (List.mem_cons_of_mem r hx)
    have hmapeq : (rows.map fun x =>
          match lookupId t x.id with
          | some fs => ChangeRecord.update n x.id fs
          | none => ChangeRecord.insert n x.id)
        = rows.map fun x =>
          match lookupId (upsertRow t r) x.id with
          | some fs => ChangeRecord.update n x.id fs
          | none => ChangeRecord.insert n x.id := by
      apply List.map_congr_left
      intro x hx
      have hne : ¬x.id = r.id := fun hh => hrid (hh ▸ List.mem_map_of_mem Row.id hx)
      rw [lookupId_upsertRow, if_neg hne]
    rw [hmapeq, ih (upsertRow t r) (tableWF_upsertRow htWF hrWF) hnd2 hrows2]
    cases hl : lookupId t r.id with
    | none =>
      simp only [undoRecordTable]
      have hfresh : hasId t r.id = false := (hasId_eq_false_iff t r.id).mpr hl
      rw [upsertRow, if_neg (by simp [hfresh])]
      exact deleteId_append_fresh t r hfresh
    | some fs =>
      exact update_replace_restore sch n hsch htWF hrWF hl

theorem foldr_delete_records (n : String) (d : List Row) (base : Table) :
    List.foldr (fun rec acc => undoRecordTable acc rec) base
      (d.map fun e => ChangeRecord.delete n e.id e.fields) = base ++ d.reverse := by
  induction d with
  | nil => simp
  | cons e d ih =>
    rw [List.map_cons, List.foldr_cons, ih]
    simp only [undoRecordTable, insertRow]
    rw [List.reverse_cons, ← List.append_assoc]

theorem undo_delete_table (n : String) (t : Table) (ids : List String)
    (hnd : (t.map Row.id).Nodup) :
    TableEq
      (List.foldr (fun rec acc => undoRecordTable acc rec)
        (t.filter fun r => !(ids.contains r.id))
        ((t.filter fun r => ids.contains r.id).map fun e =>
          ChangeRecord.delete n e.id e.fields))
      t := by
  rw [foldr_delete_records]
  intro i
  rw [lookupId_append]
  by_cases hc : ids.contains i = true
  · have hleft : lookupId (t.filter fun r => !(ids.contains r.id)) i = none := by
      rw [lookupId_eq_none_iff]
      intro x hx hxi
      have hp := List.of_mem_filter hx
      rw [hxi, hc] at hp
      simp at hp
    rw [hleft, Option.none_or]
    cases hl : lookupId t i with
    | none =>
      rw [lookupId_eq_none_iff] at hl
      rw [lookupId_eq_none_iff]
      intro x hx
      exact hl x (List.mem_of_mem_filter (List.mem_reverse.mp hx))
    | some fs =>
      have hfind := hl
      rw [lookupId] at hfind
      cases hf : t.find? (fun x => x.id == i) with
      | none =>
        rw [hf] at hfind
        exact Option.noConfusion hfind
      | some e =>
        rw [hf] at hfind
        have hemem : e ∈ t := List.mem_of_find?_eq_some hf
        have heid : e.id = i := by simpa using List.find?_some hf
        have hefields : e.fields = fs := by simpa using hfind
        apply lookupId_of_unique
        · refine ⟨e, List.mem_reverse.mpr (List.mem_filter.mpr ⟨hemem, ?_⟩), heid⟩
          rw [heid]
          exact hc
        · intro x hx hxi
          have hx2 : x ∈ t := List.mem_of_mem_filter (List.mem_reverse.mp hx)
          have hxe : x = e := row_unique_of_nodup hnd hx2 hemem (by rw [hxi, ← heid])
          rw [hxe, hefields]
  · have hleft : lookupId (t.filter fun r => !(ids.contains r.id)) i = lookupId t i := by
      rw [lookupId, lookupId, find?_filter_of_pred]
      intro r hri
      rw [hri]
      have hcf : ids.contains i = false := Bool.eq_false_iff.mpr hc
      rw [hcf]
      rfl
    have hright : lookupId ((t.filter fun r => ids.contains r.id).reverse) i = none := by
      rw [lookupId_eq_none_iff]
      intro x hx hxi
      have hp := List.of_mem_filter (List.mem_reverse.mp hx)
      rw [hxi] at hp
      exact hc hp
    rw [hleft, hright, Option.or_none]

theorem storeEq_setTable_of_tableEq {s : Store} {n : String} {T : Table}
    (h : TableEq T (getTable s n)) : StoreEq (setTable s n T) s := by
  intro m i
  rw [getTable_setTable]
  by_cases hm : m = n
  · subst hm
    rw [if_pos rfl]
    exact h i
  · rw [if_neg hm]

theorem undo_step (sch : String → List String) (hsch : ∀ m, (sch m).Nodup) {s : Store}
    (hWF : StoreWF sch s) {op : Op} (hop : OpOK sch s op) :
    StoreEq ((recordsOf s op).reverse.foldl undoRecord (applyOp s op)) s := by
  cases op with
  | insert table rows =>
    obtain ⟨hnd, hrows⟩ := hop
    simp only [recordsOf, applyOp]
    have htab : ∀ rec ∈ (trackInsert table rows).reverse, rec.table = table := by
      intro rec hrec
      rw [List.mem_reverse, trackInsert] at hrec
      obtain ⟨r, _, hr⟩ := List.mem_map.mp hrec
      rw [← hr]
      rfl
    rw [undo_records_sameTable _ table htab s _, trackInsert, List.foldl_reverse,
      undo_insert_table table (getTable s table) rows (fun r hr => (hrows r hr).2) hnd]
    exact storeEq_setTable_getTable s table
  | upsert table rows =>
    obtain ⟨hnd, hrows⟩ := hop
    simp only [recordsOf, applyOp]
    rw [trackUpsert_eq_lookup]
    have htab : ∀ rec ∈ ((rows.map fun r =>
        match lookupId (getTable s table) r.id with
        | some fs => ChangeRecord.update table r.id fs
        | none => ChangeRecord.insert table r.id).reverse), rec.table = table := by
      intro rec hrec
      rw [List.mem_reverse] at hrec
      obtain ⟨r, _, hr⟩ := List.mem_map.mp hrec
      rw [← hr]
      cases lookupId (getTable s table) r.id <;> rfl
    rw [undo_records_sameTable _ table htab s _, List.foldl_reverse,
      undo_upsert_table sch table (hsch table) rows (getTable s table)
        (tableWF_getTable hWF table) hnd hrows]
    exact storeEq_setTable_getTable s table
  | delete table ids =>
    simp only [recordsOf, applyOp, trackDelete, fetchEntities]
    have htab : ∀ rec ∈ (((getTable s table).filter fun r => ids.contains r.id).map
        fun e => ChangeRecord.delete table e.id e.fields).reverse, rec.table = table := by
      intro rec hrec
      rw [List.mem_reverse] at hrec
      obtain ⟨e, _, he⟩ := List.mem_map.mp hrec
      rw [← he]
      rfl
    rw [undo_records_sameTable _ table htab s _, List.foldl_reverse]
    exact storeEq_setTable_of_tableEq
      (undo_delete_table table (getTable s table) ids (tableWF_getTable hWF table).1)

/-- Claim C1:  For any applicable sequence of row-level mutations tracked by the
Change Tracker during one block, `rollbackBlock` — processing the block's
change records in descending index order, deleting rows for `insert` records,
rewriting the recorded pre-image for `update` records and re-inserting the
recorded pre-image for `delete` records — restores the store to its exact
pre-block state (the same rows in every table). -/
theorem rollbackBlock_inverts_changes (sch : String → List String)
    (hsch : ∀ m, (sch m).Nodup) (s : Store) (hWF : StoreWF sch s)
    (ops : List Op) (hops : OpsOK sch s ops) :
    StoreEq (rollbackBlock (runBlock s ops).1 (runBlock s ops).2) s := by
  induction ops generalizing s with
  | nil =>
    exact storeEq_refl s
  | cons op rest ih =>
    obtain ⟨hop, hrest⟩ := hops
    simp only [runBlock]
    rw [rollbackBlock, List.reverse_append, List.foldl_append]
    have hih := ih (applyOp s op) (storeWF_applyOp hWF hop) hrest
    rw [rollbackBlock] at hih
    exact storeEq_trans (storeEq_undo ((recordsOf s op).reverse) hih)
      (undo_step sch hsch hWF hop)

/-- Witness for `rollbackBlock_inverts_changes`: after inserting row 3,
upserting rows 1 and 4 and deleting rows 2 and 3 on `demoStore`, rolling the
block back restores row 1's pre-image and removes the inserted rows. -/
theorem rollbackBlock_inverts_changes_witness :
    lookupId (getTable (rollbackBlock (runBlock SquidSdk.demoStore SquidSdk.demoOps).1
        (runBlock SquidSdk.demoStore SquidSdk.demoOps).2) "item") "1" = some [("name", "a")]
    ∧ lookupId (getTable (rollbackBlock (runBlock SquidSdk.demoStore SquidSdk.demoOps).1
        (runBlock SquidSdk.demoStore SquidSdk.demoOps).2) "item") "3" = none := by
  have h := rollbackBlock_inverts_changes SquidSdk.demoSchema
    (fun _ => List.nodup_singleton "name")
    SquidSdk.demoStore (by decide) SquidSdk.demoOps (by decide)
  constructor
  · rw [h "item" "1"]
    decide
  · rw [h "item" "3"]
    decide

/-- Claim C8:  `trackUpsert` first SELECTs the existing rows by id: every
emitted record is determined by the pre-write store state — an `update`
record carrying the full pre-image for a found id, an `insert` record for an
absent id — and no `delete` records are emitted. -/
theorem trackUpsert_spec (s : Store) (table : String) (rows : List Row) :
    trackUpsert s table rows = (rows.map fun r =>
      match lookupId (getTable s table) r.id with
      | some fs => ChangeRecord.update table r.id fs
      | none => ChangeRecord.insert table r.id)
    ∧ ∀ rec ∈ trackUpsert s table rows, rec.isDelete = false := by
  refine ⟨trackUpsert_eq_lookup s table rows, ?_⟩
  intro rec hrec
  rw [trackUpsert_eq_lookup] at hrec
  obtain ⟨r, _, hr⟩ := List.mem_map.mp hrec
  rw [← hr]
  cases lookupId (getTable s table) r.id <;> rfl

/-- Witness for `trackUpsert_spec` on `demoStore`: id 1 exists (so an
`update` with pre-image `name = a` is emitted), id 4 does not (an `insert`). -/
theorem trackUpsert_spec_witness :
    trackUpsert SquidSdk.demoStore "item" SquidSdk.demoUpsertRows
      = [ChangeRecord.update "item" "1" [("name", "a")], ChangeRecord.insert "item" "4"]
    ∧ (ChangeRecord.update "item" "1" [("name", "a")]).isDelete = false := by
  constructor
  · rw [(trackUpsert_spec SquidSdk.demoStore "item" SquidSdk.demoUpsertRows).1]
    decide
  · exact (trackUpsert_spec SquidSdk.demoStore "item" SquidSdk.demoUpsertRows).2
      (ChangeRecord.update "item" "1" [("name", "a")]) (by decide)

end Hot

end SquidSdk
